import Mathlib

/-!
# The digest, keyed authenticator and counter token of `src/tools.cpp`

A shallow embedding of `circularShift`, `processSHA1MessageBlock`, `transformToSHA1`
and `generateToken`.

Conventions of the embedding:

* a `std::string` and a `uint8_t` buffer are a `List Nat` of byte values; storing a value
  into a `uint8_t` or `char` cell reduces it modulo 256;
* a `uint32_t` is a `Nat` and every operation that can leave the 32-bit range is followed
  by `% 2 ^ 32`;
* an access outside a buffer or a string, and a `substr` whose position lies behind the
  end of the string, end the computation: those functions return `Option`, `none` being
  "no result"; `generateTokenUnchecked` is `generateToken` with the writes into the key
  pads as the compiled code performs them, without a check of the index;
* the `int32_t` counter of `explodeString` is an `Int` between `-2 ^ 31` and `2 ^ 31 - 1`
  whose decrement wraps at the least value, as in the compiled code;
* a loop whose bounds are constants is a fold over the list of its index values; a loop
  whose exit depends on data recurses on a counter that is large enough for the loop to
  reach its exit (the theorems show that a result is produced, or that none is for any
  value of the counter).
-/

namespace Tools

/-! ## Strings and buffers -/

/-- Byte values of a string of ASCII characters. -/
def bytes (s : String) : List Nat := s.toList.map Char.toNat

/-- Assignment `buffer[index] = value` to a cell of a byte buffer (or of a `std::string`):
`none` when the index is outside the buffer. -/
def store (buffer : List Nat) (index value : Nat) : Option (List Nat) :=
  if index < buffer.length then some (buffer.set index (value % 256)) else none

/-- Library function `std::string::substr(pos, count)`: it throws when `pos` is behind the
end of the string, otherwise it yields the at most `count` characters from `pos` on. -/
def substr (s : List Nat) (pos count : Nat) : Option (List Nat) :=
  if pos ≤ s.length then some ((s.drop pos).take count) else none

/-- Library function `std::string::substr(pos)`, with the default count `npos`. -/
def substrFrom (s : List Nat) (pos : Nat) : Option (List Nat) :=
  if pos ≤ s.length then some (s.drop pos) else none

/-- Library function `isspace` in the C locale. -/
def isspace (c : Nat) : Bool := c == 32 || (9 ≤ c && c ≤ 13)

/-- Value of a character as a digit of base 16, as `strtoul` reads it. -/
def hexValue (c : Nat) : Option Nat :=
  if 48 ≤ c ∧ c ≤ 57 then some (c - 48)
  else if 97 ≤ c ∧ c ≤ 102 then some (c - 87)
  else if 65 ≤ c ∧ c ≤ 70 then some (c - 55)
  else none

/-- The digit loop of `strtoul`: the value of the longest run of hexadecimal digits. -/
def strtoulDigits : List Nat → Nat → Nat
  | [], acc => acc
  | c :: cs, acc =>
    match hexValue c with
    | some d => strtoulDigits cs (acc * 16 + d)
    | none => acc

/-- Largest `unsigned long` (64 bits). -/
def ULONG_MAX : Nat := 2 ^ 64 - 1

/-- Library function `std::strtoul(s.c_str(), nullptr, 16)`: leading white space, an
optional sign, an optional `0x` or `0X` in front of a digit, then hexadecimal digits up to
the first other character (the terminating NUL included); the value saturates at
`ULONG_MAX` and is negated as an `unsigned long` after a minus sign. -/
def strtoul16 (s : List Nat) : Nat :=
  let s1 := s.dropWhile isspace
  let neg := s1.head? = some 45
  let s2 := if s1.head? = some 45 ∨ s1.head? = some 43 then s1.tail else s1
  let s3 := if s2.head? = some 48 ∧ (s2.getD 1 0 = 120 ∨ s2.getD 1 0 = 88)
      ∧ (hexValue (s2.getD 2 0)).isSome then s2.drop 2 else s2
  let v := min (strtoulDigits s3 0) ULONG_MAX
  if neg then (2 ^ 64 - v) % 2 ^ 64 else v

/-- Recursion of `to_string`: the decimal digits of `n` are put in front of `acc`. -/
def toStringLoop : Nat → Nat → List Nat → List Nat
  | 0, _, acc => acc
  | fuel + 1, n, acc =>
    if n / 10 = 0 then (48 + n % 10) :: acc
    else toStringLoop fuel (n / 10) ((48 + n % 10) :: acc)

/-- Library function `std::to_string` on an unsigned value: its decimal digits, most
significant first, without leading zeros (`"0"` for zero). -/
def to_string (n : Nat) : List Nat := toStringLoop (n + 1) n []

/-! ## `circularShift` and `processSHA1MessageBlock` -/

/-- Source `circularShift` (lines 76-79): `(value << bits) | (value >> (32 - bits))` on
`uint32_t`. -/
def circularShift (bits value : Nat) : Nat :=
  ((value <<< bits) % 2 ^ 32) ||| (value >>> (32 - bits))

/-- Body of the first loop of `processSHA1MessageBlock` (lines 85-86): the word `W[i]`
read from the block. -/
def loadWord (messageBlock : List Nat) (i : Nat) : Nat :=
  let offset := i <<< 2
  ((messageBlock.getD offset 0 <<< 24) ||| (messageBlock.getD (offset + 1) 0 <<< 16)
    ||| (messageBlock.getD (offset + 2) 0 <<< 8) ||| messageBlock.getD (offset + 3) 0) % 2 ^ 32

/-- Body of the second loop (line 90): `W[i]` is written behind the `i` words that exist. -/
def scheduleStep (W : List Nat) (i : Nat) : List Nat :=
  W ++ [circularShift 1
    (W.getD (i - 3) 0 ^^^ W.getD (i - 8) 0 ^^^ W.getD (i - 14) 0 ^^^ W.getD (i - 16) 0)]

/-- The array `W` after the two loops of lines 84-91. -/
def schedule (messageBlock : List Nat) : List Nat :=
  (List.range' 16 64).foldl scheduleStep ((List.range 16).map (loadWord messageBlock))

/-- The working variables `A`, `B`, `C`, `D`, `E` of `processSHA1MessageBlock`. -/
structure Vars where
  /-- Variable `A`. -/
  A : Nat
  /-- Variable `B`. -/
  B : Nat
  /-- Variable `C`. -/
  C : Nat
  /-- Variable `D`. -/
  D : Nat
  /-- Variable `E`. -/
  E : Nat

/-- The assignment `E = D; D = C; C = circularShift(30, B); B = A; A = tmp`. -/
def rotateVars (v : Vars) (tmp : Nat) : Vars :=
  { E := v.D, D := v.C, C := circularShift 30 v.B, B := v.A, A := tmp }

/-- Body of the loop of lines 95-98. -/
def round1 (W : List Nat) (v : Vars) (i : Nat) : Vars :=
  rotateVars v ((circularShift 5 v.A + ((v.B &&& v.C) ||| ((v.B ^^^ 0xFFFFFFFF) &&& v.D))
    + v.E + W.getD i 0 + 0x5A827999) % 2 ^ 32)

/-- Body of the loop of lines 100-103. -/
def round2 (W : List Nat) (v : Vars) (i : Nat) : Vars :=
  rotateVars v ((circularShift 5 v.A + (v.B ^^^ v.C ^^^ v.D)
    + v.E + W.getD i 0 + 0x6ED9EBA1) % 2 ^ 32)

/-- Body of the loop of lines 105-108. -/
def round3 (W : List Nat) (v : Vars) (i : Nat) : Vars :=
  rotateVars v ((circularShift 5 v.A + ((v.B &&& v.C) ||| (v.B &&& v.D) ||| (v.C &&& v.D))
    + v.E + W.getD i 0 + 0x8F1BBCDC) % 2 ^ 32)

/-- Body of the loop of lines 110-113. -/
def round4 (W : List Nat) (v : Vars) (i : Nat) : Vars :=
  rotateVars v ((circularShift 5 v.A + (v.B ^^^ v.C ^^^ v.D)
    + v.E + W.getD i 0 + 0xCA62C1D6) % 2 ^ 32)

/-- Source `processSHA1MessageBlock` (lines 81-120); the updated array `H` is returned. -/
def processSHA1MessageBlock (messageBlock : List Nat) (H : List Nat) : List Nat :=
  let W := schedule messageBlock
  let v0 : Vars := ⟨H.getD 0 0, H.getD 1 0, H.getD 2 0, H.getD 3 0, H.getD 4 0⟩
  let v1 := (List.range' 0 20).foldl (round1 W) v0
  let v2 := (List.range' 20 20).foldl (round2 W) v1
  let v3 := (List.range' 40 20).foldl (round3 W) v2
  let v4 := (List.range' 60 20).foldl (round4 W) v3
  [(H.getD 0 0 + v4.A) % 2 ^ 32, (H.getD 1 0 + v4.B) % 2 ^ 32, (H.getD 2 0 + v4.C) % 2 ^ 32,
   (H.getD 3 0 + v4.D) % 2 ^ 32, (H.getD 4 0 + v4.E) % 2 ^ 32]

/-! ## `transformToSHA1` -/

/-- The initial value of the array `H` (lines 124-130). -/
def initialH : List Nat := [0x67452301, 0xEFCDAB89, 0x98BADCFE, 0x10325476, 0xC3D2E1F0]

/-- The local variables of `transformToSHA1` that its loops change. -/
structure Ctx where
  /-- Array `H`. -/
  H : List Nat
  /-- Array `messageBlock`. -/
  messageBlock : List Nat
  /-- Variable `index`. -/
  index : Nat
  /-- Variable `length_low`. -/
  length_low : Nat
  /-- Variable `length_high`. -/
  length_high : Nat

/-- Body of the input loop (lines 138-148) for the character `ch`. -/
def inputStep (s : Ctx) (ch : Nat) : Option Ctx :=
  (store s.messageBlock s.index ch).bind fun messageBlock =>
    let index := s.index + 1
    let length_low := (s.length_low + 8) % 2 ^ 32
    let length_high := if length_low = 0 then (s.length_high + 1) % 2 ^ 32 else s.length_high
    if index = 64 then
      some { H := processSHA1MessageBlock messageBlock s.H, messageBlock := messageBlock,
             index := 0, length_low := length_low, length_high := length_high }
    else
      some { H := s.H, messageBlock := messageBlock,
             index := index, length_low := length_low, length_high := length_high }

/-- The input loop `for (char ch : input)` (lines 137-149). -/
def inputLoop : Ctx → List Nat → Option Ctx
  | s, [] => some s
  | s, ch :: rest => (inputStep s ch).bind fun s1 => inputLoop s1 rest

/-- The loops `while (index < limit) messageBlock[index++] = 0` (lines 154-156 and
162-164); the buffer and the index behind the loop. -/
def zeroFill (limit : Nat) : Nat → List Nat → Nat → Option (List Nat × Nat)
  | 0, _, _ => none
  | fuel + 1, messageBlock, index =>
    if index < limit then
      (store messageBlock index 0).bind fun mb => zeroFill limit fuel mb (index + 1)
    else some (messageBlock, index)

/-- The table `hexDigits` (line 179), the characters `0123456789abcdef`. -/
def hexDigits : List Nat := [48, 49, 50, 51, 52, 53, 54, 55, 56, 57, 97, 98, 99, 100, 101, 102]

/-- Body of the output loop (lines 181-184). The C expression `(3 - hashByte) & 3` is on
`int`, where `& 3` is the remainder modulo 4 of the two's complement value. -/
def hexStep (H : List Nat) (hexstring : List Nat) (hashByte : Nat) : List Nat :=
  let byte := (H.getD (hashByte >>> 2) 0 >>> (Int.toNat (((3 : Int) - hashByte) % 4) <<< 3)) % 256
  let index := hashByte <<< 1
  (hexstring.set index (hexDigits.getD (byte >>> 4) 0)).set (index + 1)
    (hexDigits.getD (byte &&& 15) 0)

/-- Lines 178-186: the loop runs `hashByte` from 19 down to 0 over the 41 cells of
`hexstring`, whose first 40 are returned. -/
def hexString (H : List Nat) : List Nat :=
  ((List.range 20).reverse.foldl (hexStep H) (List.replicate 41 0)).take 40

/-- Lines 151-176 of `transformToSHA1`: the padding behind the input loop and the last
call of `processSHA1MessageBlock`; the final array `H`. -/
def finish (s : Ctx) : Option (List Nat) :=
  (store s.messageBlock s.index 0x80).bind fun mb1 =>
  let index := s.index + 1
  (if index > 56 then
      (zeroFill 64 65 mb1 index).bind fun r =>
        some (processSHA1MessageBlock r.1 s.H, r.1, 0)
    else some (s.H, mb1, index)).bind fun (t : List Nat × List Nat × Nat) =>
  (zeroFill 56 65 t.2.1 t.2.2).bind fun r =>
  (store r.1 56 (s.length_high >>> 24)).bind fun b56 =>
  (store b56 57 (s.length_high >>> 16)).bind fun b57 =>
  (store b57 58 (s.length_high >>> 8)).bind fun b58 =>
  (store b58 59 s.length_high).bind fun b59 =>
  (store b59 60 (s.length_low >>> 24)).bind fun b60 =>
  (store b60 61 (s.length_low >>> 16)).bind fun b61 =>
  (store b61 62 (s.length_low >>> 8)).bind fun b62 =>
  (store b62 63 s.length_low).bind fun b63 =>
  some (processSHA1MessageBlock b63 t.1)

/-- The array `H` at line 177 of `transformToSHA1`, for the given initial content of the
uninitialised array `messageBlock`. -/
def digestState (garbage : List Nat) (input : List Nat) : Option (List Nat) :=
  (inputLoop { H := initialH, messageBlock := garbage, index := 0,
               length_low := 0, length_high := 0 } input).bind finish

/-- Source `transformToSHA1` (lines 122-187), for the given initial content of the
uninitialised 64-byte array `messageBlock`. -/
def transformToSHA1With (garbage : List Nat) (input : List Nat) : Option (List Nat) :=
  (digestState garbage input).map hexString

/-- Source `transformToSHA1` (lines 122-187); the uninitialised array `messageBlock` starts
as 64 zero bytes here, and `transformToSHA1With` has every other content. -/
def transformToSHA1 (input : List Nat) : Option (List Nat) :=
  transformToSHA1With (List.replicate 64 0) input

/-! ## `generateToken` -/

/-- The loop `for (uint8_t i = 8; --i; ticks >>= 8)` of lines 193-195. -/
def ticksLoop : Nat → Nat → Nat → List Nat → Option (List Nat)
  | 0, _, _, _ => none
  | fuel + 1, i, ticks, message =>
    let i1 := (i + 255) % 256
    if i1 ≠ 0 then
      (store message i1 (ticks &&& 0xFF)).bind fun m => ticksLoop fuel i1 (ticks >>> 8) m
    else some message

/-- Lines 192-195: the message built from `ticks`, in a string that starts as `start`
(the source starts from eight NUL characters). -/
def ticksMessage (start : List Nat) (ticks : Nat) : Option (List Nat) :=
  ticksLoop 256 8 ticks start

/-- The loop of lines 199-202 over the two key pads. -/
def keyPadLoop (key : List Nat) : Nat → Nat → List Nat → List Nat → Option (List Nat × List Nat)
  | 0, _, _, _ => none
  | fuel + 1, i, iKeyPad, oKeyPad =>
    if i < key.length then
      (store iKeyPad i (iKeyPad.getD i 0 ^^^ key.getD i 0)).bind fun ip =>
      (store oKeyPad i (oKeyPad.getD i 0 ^^^ key.getD i 0)).bind fun op =>
      keyPadLoop key fuel ((i + 1) % 256) ip op
    else some (iKeyPad, oKeyPad)

/-- Lines 198-202: the two key pads. -/
def keyPads (key : List Nat) : Option (List Nat × List Nat) :=
  keyPadLoop key 257 0 (List.replicate 64 0x36) (List.replicate 64 0x5C)

/-- The loop of lines 213-215, which appends the bytes read from the pairs of hexadecimal
characters of `message` to `oKeyPad`. -/
def hexToPadLoop (message : List Nat) : Nat → Nat → List Nat → Option (List Nat)
  | 0, _, _ => none
  | fuel + 1, i, oKeyPad =>
    if i < message.length then
      (substr message i 2).bind fun s =>
        hexToPadLoop message fuel ((i + 2) % 256) (oKeyPad ++ [strtoul16 s % 256])
    else some oKeyPad

/-- Lines 191-218 of `generateToken`: the 40 characters of `message` behind the second
pass. -/
def tokenMac (key : List Nat) (ticks : Nat) : Option (List Nat) :=
  (ticksMessage (List.replicate 8 0) ticks).bind fun message =>
  (keyPads key).bind fun pads =>
  (transformToSHA1 (pads.1 ++ message)).bind fun inner =>
  (hexToPadLoop inner 129 0 pads.2).bind fun oKeyPad =>
  transformToSHA1 oKeyPad

/-- Line 221: the variable `offset`. -/
def tokenOffset (message : List Nat) : Option Nat :=
  (substr message 39 1).bind fun s => some ((strtoul16 s &&& 0xF) % 2 ^ 32)

/-- Lines 221-224: the variable `truncHash`. -/
def tokenTruncHash (message : List Nat) : Option Nat :=
  (tokenOffset message).bind fun offset =>
  (substr message (2 * offset) 8).bind fun s =>
    some ((strtoul16 s % 2 ^ 32) &&& 0x7FFFFFFF)

/-- Lines 225-231: the returned string, for the value of `truncHash`. -/
def tokenDigits (AUTHENTICATOR_DIGITS : Nat) (truncHash : Nat) : Option (List Nat) :=
  let message := to_string truncHash
  let hashLen := message.length
  (substrFrom message (hashLen - min hashLen AUTHENTICATOR_DIGITS)).bind fun m =>
    some (List.replicate (AUTHENTICATOR_DIGITS - min hashLen AUTHENTICATOR_DIGITS) 48 ++ m)

/-- Source `generateToken` (lines 189-232). The constant `AUTHENTICATOR_DIGITS` is declared
in a header; it is a parameter here. -/
def generateToken (AUTHENTICATOR_DIGITS : Nat) (key : List Nat) (ticks : Nat) :
    Option (List Nat) :=
  (tokenMac key ticks).bind fun message =>
  (tokenTruncHash message).bind fun truncHash =>
  tokenDigits AUTHENTICATOR_DIGITS truncHash

/-! ## `generateToken` with the indexing of the key pads unchecked

`operator[]` of `std::string` checks no index, and the loop of lines 199-202 runs over the
length of the key, not of the pads. `keyPadLoop` above ends the computation at an index
outside a pad. The definitions below follow the compiled code there: the write goes to the
memory behind the 64 characters of the pad and leaves these characters as they are (what
it leaves behind them is overwritten by `append` of line 208 and `push_back` of line 213,
which write from the length of the string on). -/

/-- The first `k` consecutive 64-byte blocks of a byte string. -/
def blocksN : Nat → List Nat → List (List Nat)
  | 0, _ => []
  | k + 1, l => l.take 64 :: blocksN k (l.drop 64)

/-- The consecutive full 64-byte blocks of a byte string. -/
def blocks (l : List Nat) : List (List Nat) := blocksN (l.length / 64) l

/-- The block compression folded over the consecutive 64-byte blocks of `l`, from `H`. -/
def foldBlocks (H : List Nat) (l : List Nat) : List Nat :=
  (blocks l).foldl (fun acc b => processSHA1MessageBlock b acc) H

/-- Number of zero bytes of the padding of an input of `n` bytes. -/
def zeroCount (n : Nat) : Nat := (119 - n % 64) % 64

/-- Big-endian encoding in `k` bytes of the low `8 * k` bits of `v`. -/
def bigEndian (k v : Nat) : List Nat :=
  (List.range k).map fun i => (v / 256 ^ (k - 1 - i)) % 256

/-- The 8-byte big-endian field with the bit length of an input of `n` bytes. -/
def lengthField (n : Nat) : List Nat := bigEndian 8 ((8 * n) % 2 ^ 64)

/-- The padded input: the input, one byte `0x80`, zero bytes, the length field. -/
def pad (m : List Nat) : List Nat :=
  m ++ [0x80] ++ List.replicate (zeroCount m.length) 0 ++ lengthField m.length

/-- The reference digest state, "pad then fold": the compression folded over the blocks
of the padded input, from the five initial words. -/
def referenceState (m : List Nat) : List Nat := foldBlocks initialH (pad m)

/-- Big-endian serialization of the five 32-bit words of a digest state: 20 bytes. -/
def wordBytes (H : List Nat) : List Nat :=
  (List.range 5).flatMap fun k => bigEndian 4 (H.getD k 0)

/-- Lowercase hexadecimal rendering of a byte string, two characters for a byte. -/
def hexOfBytes (bs : List Nat) : List Nat :=
  bs.flatMap fun b => [hexDigits.getD (b / 16) 0, hexDigits.getD (b % 16) 0]

/-- The reference digest as 40 hexadecimal characters. -/
def referenceSHA1 (m : List Nat) : List Nat := hexOfBytes (wordBytes (referenceState m))

/-- The raw 20 bytes of the reference digest. -/
def referenceSHA1Bytes (m : List Nat) : List Nat := wordBytes (referenceState m)

/-- The key extended with zero bytes to 64 bytes, combined byte by byte with a pad byte. -/
def xorPad (key : List Nat) (padByte : Nat) : List Nat :=
  (key ++ List.replicate (64 - key.length) 0).map fun k => k ^^^ padByte

/-- The reference HMAC-SHA1, as 40 hexadecimal characters:
`SHA1((K xor opad) ++ rawbytes(SHA1((K xor ipad) ++ message)))`. -/
def referenceHMAC (key message : List Nat) : List Nat :=
  referenceSHA1 (xorPad key 0x5C ++ referenceSHA1Bytes (xorPad key 0x36 ++ message))

/-- The 8-byte counter message: the counter in big-endian order. -/
def counterMessage (c : Nat) : List Nat := bigEndian 8 c

/-- The reference dynamic truncation of a 20-byte MAC. -/
def referenceTruncation (mac : List Nat) : Nat :=
  let offset := mac.getD 19 0 &&& 0x0F
  ((mac.getD offset 0 &&& 0x7F) <<< 24) ||| (mac.getD (offset + 1) 0 <<< 16)
    ||| (mac.getD (offset + 2) 0 <<< 8) ||| mac.getD (offset + 3) 0

/-- The `D` least significant decimal digits of `t` as characters, most significant
first. -/
def lastDecimalDigits (D t : Nat) : List Nat :=
  (List.range D).map fun i => 48 + (t / 10 ^ (D - 1 - i)) % 10

/-- A string left-padded with the character `0` to the width `D`. -/
def leftPad (D : Nat) (s : List Nat) : List Nat := List.replicate (D - s.length) 48 ++ s

/-! ## `transformToSHA1` with a record of its calls

A second copy of the input loop and of the padding of `transformToSHA1`, which besides
the state keeps a record of the calls of `processSHA1MessageBlock`. -/

/-- What a run of `transformToSHA1` did. -/
structure Trace where
  /-- Number of calls of `processSHA1MessageBlock`. -/
  calls : Nat
  /-- Whether the branch `index > 56` of line 153 was taken. -/
  extraBlock : Bool
  /-- The array `messageBlock` at the last call of `processSHA1MessageBlock` (line 176). -/
  lastBlock : List Nat

/-- Body of the input loop (lines 138-148), as `inputStep`, with the number of calls of
`processSHA1MessageBlock` so far. -/
def inputStepCalls (s : Ctx) (calls : Nat) (ch : Nat) : Option (Ctx × Nat) :=
  (store s.messageBlock s.index ch).bind fun messageBlock =>
    let index := s.index + 1
    let length_low := (s.length_low + 8) % 2 ^ 32
    let length_high := if length_low = 0 then (s.length_high + 1) % 2 ^ 32 else s.length_high
    if index = 64 then
      some ({ H := processSHA1MessageBlock messageBlock s.H, messageBlock := messageBlock,
              index := 0, length_low := length_low, length_high := length_high }, calls + 1)
    else
      some ({ H := s.H, messageBlock := messageBlock,
              index := index, length_low := length_low, length_high := length_high }, calls)

/-- The input loop (lines 137-149), as `inputLoop`, with the number of calls. -/
def inputLoopCalls : Ctx → Nat → List Nat → Option (Ctx × Nat)
  | s, calls, [] => some (s, calls)
  | s, calls, ch :: rest =>
    (inputStepCalls s calls ch).bind fun r => inputLoopCalls r.1 r.2 rest

/-- Lines 151-176, as `finish`, with the record of the calls: the final array `H` and the
record. -/
def finishTraced (s : Ctx) (calls : Nat) : Option (List Nat × Trace) :=
  (store s.messageBlock s.index 0x80).bind fun mb1 =>
  let index := s.index + 1
  (if index > 56 then
      (zeroFill 64 65 mb1 index).bind fun r =>
        some (processSHA1MessageBlock r.1 s.H, r.1, 0, calls + 1, true)
    else some (s.H, mb1, index, calls, false)).bind
      fun (t : List Nat × List Nat × Nat × Nat × Bool) =>
  (zeroFill 56 65 t.2.1 t.2.2.1).bind fun r =>
  (store r.1 56 (s.length_high >>> 24)).bind fun b56 =>
  (store b56 57 (s.length_high >>> 16)).bind fun b57 =>
  (store b57 58 (s.length_high >>> 8)).bind fun b58 =>
  (store b58 59 s.length_high).bind fun b59 =>
  (store b59 60 (s.length_low >>> 24)).bind fun b60 =>
  (store b60 61 (s.length_low >>> 16)).bind fun b61 =>
  (store b61 62 (s.length_low >>> 8)).bind fun b62 =>
  (store b62 63 s.length_low).bind fun b63 =>
  some (processSHA1MessageBlock b63 t.1,
    { calls := t.2.2.2.1 + 1, extraBlock := t.2.2.2.2, lastBlock := b63 })

/-- The array `H` at line 177 of `transformToSHA1`, as `digestState`, with the record of
the calls of `processSHA1MessageBlock`. -/
def digestStateTraced (garbage : List Nat) (input : List Nat) : Option (List Nat × Trace) :=
  (inputLoopCalls { H := initialH, messageBlock := garbage, index := 0,
                    length_low := 0, length_high := 0 } 0 input).bind
    fun r => finishTraced r.1 r.2

/-! ## Reference definitions for the block compression -/

/-- Rotation to the left by `k` positions of a 32-bit value. -/
def rotateLeft32 (k v : Nat) : Nat := (v % 2 ^ (32 - k)) * 2 ^ k + v / 2 ^ (32 - k)

/-- A round of the shape that the four loops of `processSHA1MessageBlock` share, for a
mixing function `f` of `(B, C, D)` and an additive constant `K`. -/
def roundWith (f : Nat → Nat → Nat → Nat) (K : Nat) (W : List Nat) (v : Vars) (i : Nat) :
    Vars :=
  rotateVars v ((circularShift 5 v.A + f v.B v.C v.D + v.E + W.getD i 0 + K) % 2 ^ 32)

/-- The mixing function of phase `p` (0 to 3) on 32-bit words: choice, parity, majority,
parity. -/
def phaseFunction (p : Nat) (B C D : Nat) : Nat :=
  if p = 0 then (B &&& C) ||| ((B ^^^ 0xFFFFFFFF) &&& D)
  else if p = 2 then (B &&& C) ||| (B &&& D) ||| (C &&& D)
  else B ^^^ C ^^^ D

/-- The additive constant of phase `p` (0 to 3). -/
def phaseConstant (p : Nat) : Nat :=
  if p = 0 then 0x5A827999
  else if p = 1 then 0x6ED9EBA1
  else if p = 2 then 0x8F1BBCDC
  else 0xCA62C1D6

/-- Step `i` of the reference compression: `(A, B, C, D, E)` becomes
`(rotl5 A + f_i (B, C, D) + E + W[i] + K_i, A, rotl30 B, C, D)`, with `f_i` and `K_i`
selected by `i / 20`. -/
def referenceRound (W : List Nat) (v : Vars) (i : Nat) : Vars :=
  { A := (rotateLeft32 5 v.A + phaseFunction (i / 20) v.B v.C v.D + v.E + W.getD i 0
            + phaseConstant (i / 20)) % 2 ^ 32,
    B := v.A, C := rotateLeft32 30 v.B, D := v.C, E := v.D }

/-- The reference compression: one fold of 80 steps from `(A, B, C, D, E) = H`, whose
result is added to `H` word by word modulo `2 ^ 32`. -/
def referenceCompress (messageBlock : List Nat) (H : List Nat) : List Nat :=
  let v := (List.range 80).foldl (referenceRound (schedule messageBlock))
    ⟨H.getD 0 0, H.getD 1 0, H.getD 2 0, H.getD 3 0, H.getD 4 0⟩
  [(H.getD 0 0 + v.A) % 2 ^ 32, (H.getD 1 0 + v.B) % 2 ^ 32, (H.getD 2 0 + v.C) % 2 ^ 32,
   (H.getD 3 0 + v.D) % 2 ^ 32, (H.getD 4 0 + v.E) % 2 ^ 32]

/-- The big-endian 32-bit word formed from the block bytes `4 * i` to `4 * i + 3`. -/
def blockWord (messageBlock : List Nat) (i : Nat) : Nat :=
  messageBlock.getD (4 * i) 0 * 2 ^ 24 + messageBlock.getD (4 * i + 1) 0 * 2 ^ 16
    + messageBlock.getD (4 * i + 2) 0 * 2 ^ 8 + messageBlock.getD (4 * i + 3) 0

/-- The 8-digit zero-padded lowercase hexadecimal representation of a 32-bit word, most
significant digit first. -/
def hexWord (w : Nat) : List Nat :=
  (List.range 8).map fun i => hexDigits.getD (w / 16 ^ (7 - i) % 16) 0

/-! ## `adlerChecksum` -/

/-- The `do ... while (--tmp)` loop of `adlerChecksum` (lines 783-786) on the bytes that
`data` points to: the rest of the bytes and the variables `a` and `b` behind the loop;
`none` when `*data` is read behind the last byte. The counter `tmp` is a `size_t` of 64
bits. -/
def adlerChunk : List Nat → Nat → Nat → Nat → Option (List Nat × Nat × Nat)
  | [], _, _, _ => none
  | d :: rest, tmp, a, b =>
    let a1 := (a + d) % 2 ^ 32
    let b1 := (b + a1) % 2 ^ 32
    let tmp1 := (tmp + (2 ^ 64 - 1)) % 2 ^ 64
    if tmp1 ≠ 0 then adlerChunk rest tmp1 a1 b1 else some (rest, a1, b1)

/-- The loop `while (length > 0)` of `adlerChecksum` (lines 779-790): the variables `a`
and `b` behind the loop. -/
def adlerLoop : Nat → List Nat → Nat → Nat → Nat → Option (Nat × Nat)
  | 0, _, _, _, _ => none
  | fuel + 1, data, length, a, b =>
    if length > 0 then
      let tmp := if length > 5552 then 5552 else length
      (adlerChunk data tmp a b).bind fun r =>
        adlerLoop fuel r.1 (length - tmp) (r.2.1 % 65521) (r.2.2 % 65521)
    else some (a, b)

/-- Source `adlerChecksum` (lines 769-793) on the bytes that `data` points to. The
constant `NETWORKMESSAGE_MAXSIZE` is declared in a header; it is a parameter here. -/
def adlerChecksum (NETWORKMESSAGE_MAXSIZE : Nat) (data : List Nat) (length : Nat) :
    Option Nat :=
  if length > NETWORKMESSAGE_MAXSIZE then some 0
  else (adlerLoop (length + 1) data length 1 0).bind fun r =>
    some (((r.2 <<< 16) % 2 ^ 32) ||| r.1)

/-! ## `explodeString` -/

/-- The sums of the checksum over unbounded integers: from `(a, b)`, every byte `d` gives
`a + d` and `b + (a + d)`. -/
def adlerSums : List Nat → Nat → Nat → Nat × Nat
  | [], a, b => (a, b)
  | d :: rest, a, b => adlerSums rest (a + d) (b + (a + d))

/-- The value `A`: one plus the sum of all bytes, modulo 65521. -/
def adlerA (data : List Nat) : Nat := (1 + data.sum) % 65521

/-- The value `B`: the sum, over every non-empty prefix, of one plus the sum of the bytes
of the prefix, modulo 65521. -/
def adlerB (data : List Nat) : Nat :=
  ((List.range data.length).map fun i => 1 + (data.take (i + 1)).sum).sum % 65521

theorem store_of_lt {b : List Nat} {i : Nat} (v : Nat) (h : i < b.length) :
    store b i v = some (b.set i (v % 256)) := by
  simp [store, h]

theorem take_set_succ (b : List Nat) (i v : Nat) (h : i < b.length) :
    (b.set i v).take (i + 1) = b.take i ++ [v] := by
  rw [List.set_eq_take_append_cons_drop]
  simp only [h, if_true]
  rw [List.take_append_eq_append_take]
  have : (List.take i b).length = i := by simp; omega
  simp [this, List.take_take]

theorem zeroFill_spec (limit : Nat) :
    ∀ (fuel : Nat) (mb : List Nat) (index : Nat), index ≤ limit → limit ≤ mb.length →
      limit - index < fuel →
      zeroFill limit fuel mb index
        = some (mb.take index ++ List.replicate (limit - index) 0 ++ mb.drop limit, limit) := by
  intro fuel
  induction fuel with
  | zero => intro mb index _ _ h; omega
  | succ fuel ih =>
    intro mb index h1 h2 h3
    rw [zeroFill]
    by_cases hlt : index < limit
    · have hidx : index < mb.length := by omega
      rw [if_pos hlt, store_of_lt 0 hidx, Option.some_bind,
        ih _ _ (by omega) (by simpa using h2) (by omega)]
      have e : limit - index = (limit - (index + 1)) + 1 := by omega
      rw [take_set_succ _ _ _ hidx, e, List.replicate_succ, List.drop_set_of_lt _ _ hlt]
      simp
    · have e : index = limit := by omega
      subst e
      simp [hlt]

theorem store8 {α : Type} (T X : List Nat) (hT : T.length = 56) (hX : X.length = 8)
    (v0 v1 v2 v3 v4 v5 v6 v7 : Nat) (k : List Nat → Option α) :
    ((store (T ++ X) 56 v0).bind fun b56 =>
      (store b56 57 v1).bind fun b57 =>
      (store b57 58 v2).bind fun b58 =>
      (store b58 59 v3).bind fun b59 =>
      (store b59 60 v4).bind fun b60 =>
      (store b60 61 v5).bind fun b61 =>
      (store b61 62 v6).bind fun b62 =>
      (store b62 63 v7).bind k)
      = k (T ++ [v0 % 256, v1 % 256, v2 % 256, v3 % 256, v4 % 256, v5 % 256, v6 % 256,
          v7 % 256]) := by
  match X, hX with
  | [x0, x1, x2, x3, x4, x5, x6, x7], _ =>
    simp [store, hT, List.set_append]


theorem blocks_of_short (l : List Nat) (h : l.length < 64) : blocks l = [] := by
  have : l.length / 64 = 0 := Nat.div_eq_of_lt h
  simp [blocks, this, blocksN]

theorem foldBlocks_of_short (H l : List Nat) (h : l.length < 64) : foldBlocks H l = H := by
  simp [foldBlocks, blocks_of_short l h]

theorem blocks_block_append (B l : List Nat) (hB : B.length = 64) :
    blocks (B ++ l) = B :: blocks l := by
  have e : (B ++ l).length / 64 = l.length / 64 + 1 := by
    rw [List.length_append, hB]; omega
  rw [blocks, e, blocksN, List.take_left' hB, List.drop_left' hB, blocks]

theorem foldBlocks_block_append (H B l : List Nat) (hB : B.length = 64) :
    foldBlocks H (B ++ l) = foldBlocks (processSHA1MessageBlock B H) l := by
  simp [foldBlocks, blocks_block_append B l hB]

theorem foldBlocks_block (H B : List Nat) (hB : B.length = 64) :
    foldBlocks H B = processSHA1MessageBlock B H := by
  have := foldBlocks_block_append H B [] hB
  rw [List.append_nil] at this
  rw [this, foldBlocks_of_short _ _ (by simp)]

/-- The invariant of the input loop. -/
theorem inputLoop_spec :
    ∀ (m : List Nat) (s : Ctx), s.messageBlock.length = 64 → s.index < 64 →
      ∃ s1, inputLoop s m = some s1 ∧ s1.messageBlock.length = 64 ∧
        s1.index = (s.index + m.length) % 64 ∧
        ∀ t, foldBlocks s1.H (s1.messageBlock.take s1.index ++ t)
          = foldBlocks s.H (s.messageBlock.take s.index ++ m.map (· % 256) ++ t) := by
  intro m
  induction m with
  | nil =>
    intro s h1 h2
    exact ⟨s, rfl, h1, by simp; omega, by simp⟩
  | cons ch rest ih =>
    intro s h1 h2
    have hidx : s.index < s.messageBlock.length := by omega
    simp only [inputLoop, inputStep, store_of_lt ch hidx, Option.some_bind]
    by_cases h64 : s.index + 1 = 64
    · rw [if_pos h64, Option.some_bind]
      obtain ⟨s1, e1, l1, i1, f1⟩ := ih
        { H := processSHA1MessageBlock (s.messageBlock.set s.index (ch % 256)) s.H,
          messageBlock := s.messageBlock.set s.index (ch % 256), index := 0,
          length_low := (s.length_low + 8) % 2 ^ 32,
          length_high := if (s.length_low + 8) % 2 ^ 32 = 0 then (s.length_high + 1) % 2 ^ 32
            else s.length_high } (by simpa using h1) (by simp)
      refine ⟨s1, e1, l1, ?_, ?_⟩
      · rw [i1]; simp only [List.length_cons]; omega
      · intro t
        rw [f1 t]
        simp only [List.take_zero, List.nil_append]
        have hB : (s.messageBlock.take s.index ++ [ch % 256]).length = 64 := by
          simp; omega
        have hset : s.messageBlock.set s.index (ch % 256)
            = s.messageBlock.take s.index ++ [ch % 256] := by
          rw [← take_set_succ _ _ _ hidx, h64]
          exact (List.take_of_length_le (by simp; omega)).symm
        rw [hset, ← foldBlocks_block_append _ _ _ hB]
        simp
    · rw [if_neg h64, Option.some_bind]
      obtain ⟨s1, e1, l1, i1, f1⟩ := ih
        { H := s.H,
          messageBlock := s.messageBlock.set s.index (ch % 256), index := s.index + 1,
          length_low := (s.length_low + 8) % 2 ^ 32,
          length_high := if (s.length_low + 8) % 2 ^ 32 = 0 then (s.length_high + 1) % 2 ^ 32
            else s.length_high } (by simpa using h1) (by simp; omega)
      refine ⟨s1, e1, l1, ?_, ?_⟩
      · rw [i1]; simp only [List.length_cons]; congr 1; omega
      · intro t
        rw [f1 t]
        simp only []
        rw [take_set_succ _ _ _ hidx]
        simp


theorem inputStep_length (s s2 : Ctx) (ch : Nat) (h : inputStep s ch = some s2) :
    s2.length_low = (s.length_low + 8) % 2 ^ 32 ∧
    s2.length_high = (if (s.length_low + 8) % 2 ^ 32 = 0 then (s.length_high + 1) % 2 ^ 32
      else s.length_high) := by
  unfold inputStep at h
  cases hs : store s.messageBlock s.index ch with
  | none => simp [hs] at h
  | some mb =>
    simp only [hs, Option.some_bind] at h
    split at h <;> (injection h with h; subst h; exact ⟨rfl, rfl⟩)

/-- The two length counters behind the input loop hold the bit length modulo `2 ^ 64`. -/
theorem inputLoop_length :
    ∀ (m : List Nat) (s s1 : Ctx), inputLoop s m = some s1 →
      s.length_low < 2 ^ 32 → s.length_high < 2 ^ 32 → s.length_low % 8 = 0 →
      s1.length_low < 2 ^ 32 ∧ s1.length_high < 2 ^ 32 ∧ s1.length_low % 8 = 0 ∧
      s1.length_high * 2 ^ 32 + s1.length_low
        = (s.length_high * 2 ^ 32 + s.length_low + 8 * m.length) % 2 ^ 64 := by
  intro m
  induction m with
  | nil =>
    intro s s1 h a b c
    simp only [inputLoop, Option.some.injEq] at h
    subst h
    refine ⟨a, b, c, ?_⟩
    simp only [List.length_nil]
    norm_num at a b ⊢
    omega
  | cons ch rest ih =>
    intro s s1 h a b c
    simp only [inputLoop] at h
    cases hs : inputStep s ch with
    | none => simp [hs] at h
    | some s2 =>
      simp only [hs, Option.some_bind] at h
      obtain ⟨e1, e2⟩ := inputStep_length s s2 ch hs
      norm_num at a b e1 e2
      have a2 : s2.length_low < 2 ^ 32 := by norm_num; omega
      have b2 : s2.length_high < 2 ^ 32 := by
        norm_num; rw [e2]; split <;> omega
      have c2 : s2.length_low % 8 = 0 := by omega
      obtain ⟨r1, r2, r3, r4⟩ := ih s2 s1 h a2 b2 c2
      refine ⟨r1, r2, r3, ?_⟩
      rw [r4]
      simp only [List.length_cons]
      norm_num
      split at e2 <;> omega

theorem bigEndian8_of_halves (hi lo : Nat) (h2 : lo < 2 ^ 32) :
    bigEndian 8 (hi * 2 ^ 32 + lo)
      = [(hi >>> 24) % 256, (hi >>> 16) % 256, (hi >>> 8) % 256, hi % 256,
         (lo >>> 24) % 256, (lo >>> 16) % 256, (lo >>> 8) % 256, lo % 256] := by
  simp only [bigEndian, List.range, List.range.loop, List.map, Nat.shiftRight_eq_div_pow]
  norm_num at h2 ⊢
  refine ⟨?_, ?_, ?_, ?_, ?_, ?_, ?_⟩ <;> omega

theorem finish_spec (s : Ctx) (h1 : s.messageBlock.length = 64) (h2 : s.index < 64) :
    finish s = some (foldBlocks s.H (s.messageBlock.take s.index ++
      ([0x80] ++ List.replicate ((119 - s.index) % 64) 0 ++
        [(s.length_high >>> 24) % 256, (s.length_high >>> 16) % 256,
         (s.length_high >>> 8) % 256, s.length_high % 256,
         (s.length_low >>> 24) % 256, (s.length_low >>> 16) % 256,
         (s.length_low >>> 8) % 256, s.length_low % 256]))) := by
  have hidx : s.index < s.messageBlock.length := by omega
  have hlen1 : (s.messageBlock.set s.index (0x80 % 256)).length = 64 := by simpa using h1
  unfold finish
  rw [store_of_lt _ hidx, Option.some_bind]
  by_cases h56 : s.index + 1 > 56
  · simp only [if_pos h56]
    rw [zeroFill_spec 64 65 _ _ (by omega) (by omega) (by omega)]
    simp only [Option.some_bind]
    rw [zeroFill_spec 56 65 _ _ (by omega) (by simp; omega) (by omega)]
    simp only [Option.some_bind, List.take_zero, List.nil_append, Nat.sub_zero]
    refine (store8 _ _ (by simp) (by simp; omega) _ _ _ _ _ _ _ _ _).trans ?_
    rw [take_set_succ _ _ _ hidx, List.drop_of_length_le (by omega), List.append_nil]
    have hB : (List.take s.index s.messageBlock ++ [0x80 % 256]
        ++ List.replicate (64 - (s.index + 1)) 0).length = 64 := by
      simp; omega
    have ek : (119 - s.index) % 64 = (64 - (s.index + 1)) + 56 := by omega
    rw [ek, List.replicate_add]
    have : List.take s.index s.messageBlock ++ ([128] ++ (List.replicate (64 - (s.index + 1)) 0
          ++ List.replicate 56 0) ++
        [(s.length_high >>> 24) % 256, (s.length_high >>> 16) % 256,
         (s.length_high >>> 8) % 256, s.length_high % 256,
         (s.length_low >>> 24) % 256, (s.length_low >>> 16) % 256,
         (s.length_low >>> 8) % 256, s.length_low % 256])
        = (List.take s.index s.messageBlock ++ [0x80 % 256]
            ++ List.replicate (64 - (s.index + 1)) 0) ++ (List.replicate 56 0 ++
        [(s.length_high >>> 24) % 256, (s.length_high >>> 16) % 256,
         (s.length_high >>> 8) % 256, s.length_high % 256,
         (s.length_low >>> 24) % 256, (s.length_low >>> 16) % 256,
         (s.length_low >>> 8) % 256, s.length_low % 256]) := by
      simp
    rw [this, foldBlocks_block_append _ _ _ hB, foldBlocks_block _ _ (by simp)]
  · simp only [if_neg h56, Option.some_bind]
    rw [zeroFill_spec 56 65 _ _ (by omega) (by omega) (by omega)]
    simp only [Option.some_bind]
    refine (store8 _ _ (by simp; omega) (by simp; omega) _ _ _ _ _ _ _ _ _).trans ?_
    rw [take_set_succ _ _ _ hidx]
    have ek : (119 - s.index) % 64 = 56 - (s.index + 1) := by omega
    rw [ek, foldBlocks_block _ _ (by simp; omega)]
    simp


/-- The streaming computation of `transformToSHA1` is "pad then fold". -/
theorem digestState_eq (garbage m : List Nat) (hg : garbage.length = 64) :
    digestState garbage m = some (referenceState (m.map (· % 256))) := by
  obtain ⟨s1, e1, l1, i1, f1⟩ := inputLoop_spec m
    { H := initialH, messageBlock := garbage, index := 0, length_low := 0, length_high := 0 }
    hg (by simp)
  obtain ⟨c1, -, -, c4⟩ := inputLoop_length m _ s1 e1 (by simp) (by simp) (by simp)
  have hi : s1.index < 64 := by rw [i1]; exact Nat.mod_lt _ (by norm_num)
  rw [digestState, e1, Option.some_bind, finish_spec s1 l1 hi, f1]
  simp only [List.take_zero, List.nil_append, Nat.zero_add, Nat.zero_mul] at i1 c4 ⊢
  rw [← bigEndian8_of_halves _ _ c1, c4, i1]
  simp [referenceState, pad, lengthField, zeroCount]

/-! ## The hexadecimal output -/

theorem and_15 (b : Nat) : b &&& 15 = b % 16 := Nat.and_pow_two_sub_one_eq_mod b 4

theorem hexStep_append (H P R : List Nat) (x y n : Nat) (hP : P.length = 2 * n) :
    hexStep H (P ++ x :: y :: R) n
      = P ++ hexDigits.getD (((H.getD (n >>> 2) 0
            >>> (Int.toNat (((3 : Int) - n) % 4) <<< 3)) % 256) >>> 4) 0
          :: hexDigits.getD (((H.getD (n >>> 2) 0
            >>> (Int.toNat (((3 : Int) - n) % 4) <<< 3)) % 256) &&& 15) 0 :: R := by
  have e : n <<< 1 = P.length := by rw [hP, Nat.shiftLeft_eq]; omega
  simp only [hexStep, e]
  simp [List.set_append]

theorem hexFold (H : List Nat) :
    ∀ (n : Nat) (P R : List Nat), P.length = 2 * n →
      (List.range n).reverse.foldl (hexStep H) (P ++ R)
        = (List.range n).flatMap (fun hashByte =>
            [hexDigits.getD (((H.getD (hashByte >>> 2) 0
                >>> (Int.toNat (((3 : Int) - hashByte) % 4) <<< 3)) % 256) >>> 4) 0,
             hexDigits.getD (((H.getD (hashByte >>> 2) 0
                >>> (Int.toNat (((3 : Int) - hashByte) % 4) <<< 3)) % 256) &&& 15) 0]) ++ R := by
  intro n
  induction n with
  | zero =>
    intro P R hP
    have : P = [] := List.length_eq_zero.mp (by simpa using hP)
    simp [this]
  | succ n ih =>
    intro P R hP
    have hd : (P.drop (2 * n)).length = 2 := by rw [List.length_drop, hP]; omega
    obtain ⟨x, y, hxy⟩ : ∃ x y, P.drop (2 * n) = [x, y] := by
      match h : P.drop (2 * n), hd with
      | [x, y], _ => exact ⟨x, y, rfl⟩
    have hP2 : P = P.take (2 * n) ++ [x, y] := by
      rw [← hxy, List.take_append_drop]
    have hl : (P.take (2 * n)).length = 2 * n := by rw [List.length_take, hP]; omega
    rw [List.range_succ, List.reverse_append, List.reverse_singleton, List.singleton_append,
      List.foldl_cons, hP2, List.append_assoc]
    simp only [List.cons_append, List.nil_append]
    rw [hexStep_append H _ R x y n hl, ih _ _ hl]
    simp [List.flatMap_append]

theorem hexString_unfold (H : List Nat) :
    hexString H = (List.range 20).flatMap (fun hashByte =>
      [hexDigits.getD (((H.getD (hashByte >>> 2) 0
          >>> (Int.toNat (((3 : Int) - hashByte) % 4) <<< 3)) % 256) >>> 4) 0,
       hexDigits.getD (((H.getD (hashByte >>> 2) 0
          >>> (Int.toNat (((3 : Int) - hashByte) % 4) <<< 3)) % 256) &&& 15) 0]) := by
  have e : List.replicate 41 0 = List.replicate 40 0 ++ [0] := by decide
  rw [hexString, e, hexFold H 20 _ _ (by simp)]
  rw [List.take_left' (by simp [Function.comp_def])]

theorem wordBytes_unfold (H : List Nat) :
    wordBytes H = (List.range 20).map (fun hashByte =>
      (H.getD (hashByte >>> 2) 0 >>> (Int.toNat (((3 : Int) - hashByte) % 4) <<< 3)) % 256) := by
  simp only [wordBytes, bigEndian, List.range, List.range.loop,
    List.flatMap_cons, List.flatMap_nil, List.map_cons, List.map_nil,
    List.append_nil, Nat.shiftRight_eq_div_pow, List.cons_append, List.nil_append]
  norm_num [Int.toNat, Nat.shiftLeft_eq]

theorem hexString_eq (H : List Nat) : hexString H = hexOfBytes (wordBytes H) := by
  rw [hexString_unfold, wordBytes_unfold, hexOfBytes, List.flatMap_map]
  simp only [and_15, Nat.shiftRight_eq_div_pow]

/-! ## Reading hexadecimal characters -/

theorem hexDigit_facts : ∀ d, d < 16 →
    hexValue (hexDigits.getD d 0) = some d ∧ isspace (hexDigits.getD d 0) = false ∧
    hexDigits.getD d 0 ≠ 45 ∧ hexDigits.getD d 0 ≠ 43 ∧ hexDigits.getD d 0 ≠ 120 ∧
    hexDigits.getD d 0 ≠ 88 := by
  decide

theorem strtoulDigits_hex :
    ∀ (ds : List Nat) (acc : Nat), (∀ d ∈ ds, d < 16) →
      strtoulDigits (ds.map fun d => hexDigits.getD d 0) acc
        = ds.foldl (fun a d => a * 16 + d) acc := by
  intro ds
  induction ds with
  | nil => intro acc _; rfl
  | cons d rest ih =>
    intro acc h
    have hd := (hexDigit_facts d (h d (by simp))).1
    simp only [List.map_cons, strtoulDigits, hd, List.foldl_cons]
    exact ih _ (fun x hx => h x (by simp [hx]))

theorem strtoul16_hex (ds : List Nat) (h : ∀ d ∈ ds, d < 16) :
    strtoul16 (ds.map fun d => hexDigits.getD d 0)
      = min (ds.foldl (fun a d => a * 16 + d) 0) ULONG_MAX := by
  cases ds with
  | nil => simp [strtoul16, strtoulDigits]
  | cons d rest =>
    obtain ⟨-, f2, f3, f4, -, -⟩ := hexDigit_facts d (h d (by simp))
    have hx2 : ¬ (((d :: rest).map fun d => hexDigits.getD d 0).getD 1 0 = 120 ∨
        ((d :: rest).map fun d => hexDigits.getD d 0).getD 1 0 = 88) := by
      cases rest with
      | nil => simp
      | cons d1 r =>
        obtain ⟨-, -, -, -, g5, g6⟩ := hexDigit_facts d1 (h d1 (by simp))
        simp only [List.map_cons, List.getD_cons_succ, List.getD_cons_zero]
        rintro (hx | hx)
        · exact g5 hx
        · exact g6 hx
    unfold strtoul16
    simp only [List.map_cons, List.dropWhile_cons, f2, Bool.false_eq_true, if_false,
      List.head?_cons, Option.some.injEq, f3, f4, or_self]
    rw [← List.map_cons (fun d => hexDigits.getD d 0),
      if_neg (by rintro ⟨-, hx, -⟩; exact hx2 hx), strtoulDigits_hex _ _ h]


theorem hexOfBytes_nil : hexOfBytes [] = [] := rfl

theorem hexOfBytes_cons (b : Nat) (bs : List Nat) :
    hexOfBytes (b :: bs)
      = hexDigits.getD (b / 16) 0 :: hexDigits.getD (b % 16) 0 :: hexOfBytes bs := by
  simp [hexOfBytes]

theorem hexOfBytes_append (as bs : List Nat) :
    hexOfBytes (as ++ bs) = hexOfBytes as ++ hexOfBytes bs := by
  simp [hexOfBytes]

theorem hexOfBytes_length (bs : List Nat) : (hexOfBytes bs).length = 2 * bs.length := by
  induction bs with
  | nil => rfl
  | cons b bs ih => rw [hexOfBytes_cons]; simp [ih]; omega

theorem hexOfBytes_drop : ∀ (k : Nat) (bs : List Nat),
    (hexOfBytes bs).drop (2 * k) = hexOfBytes (bs.drop k) := by
  intro k
  induction k with
  | zero => intro bs; simp
  | succ k ih =>
    intro bs
    cases bs with
    | nil => simp [hexOfBytes_nil]
    | cons b bs =>
      have e : 2 * (k + 1) = 2 * k + 1 + 1 := by omega
      rw [hexOfBytes_cons, e, List.drop_succ_cons, List.drop_succ_cons, List.drop_succ_cons, ih]

theorem hexOfBytes_take : ∀ (k : Nat) (bs : List Nat),
    (hexOfBytes bs).take (2 * k) = hexOfBytes (bs.take k) := by
  intro k
  induction k with
  | zero => intro bs; simp [hexOfBytes_nil]
  | succ k ih =>
    intro bs
    cases bs with
    | nil => simp [hexOfBytes_nil]
    | cons b bs =>
      have e : 2 * (k + 1) = 2 * k + 1 + 1 := by omega
      rw [hexOfBytes_cons, e, List.take_succ_cons, List.take_succ_cons, List.take_succ_cons,
        hexOfBytes_cons, ih]

theorem hexOfBytes_eq_map (bs : List Nat) :
    hexOfBytes bs = (bs.flatMap fun b => [b / 16, b % 16]).map fun d => hexDigits.getD d 0 := by
  induction bs with
  | nil => rfl
  | cons b bs ih => rw [hexOfBytes_cons, ih]; simp

theorem foldl_nibbles : ∀ (bs : List Nat) (acc : Nat),
    (bs.flatMap fun b => [b / 16, b % 16]).foldl (fun a d => a * 16 + d) acc
      = bs.foldl (fun a b => a * 256 + b) acc := by
  intro bs
  induction bs with
  | nil => intro acc; rfl
  | cons b bs ih =>
    intro acc
    simp only [List.flatMap_cons, List.cons_append, List.nil_append, List.foldl_cons, ih]
    congr 1
    omega

theorem strtoul16_hexOfBytes (bs : List Nat) (h : ∀ b ∈ bs, b < 256) :
    strtoul16 (hexOfBytes bs) = min (bs.foldl (fun a b => a * 256 + b) 0) ULONG_MAX := by
  rw [hexOfBytes_eq_map, strtoul16_hex, foldl_nibbles]
  intro d hd
  simp only [List.mem_flatMap, List.mem_cons, List.mem_singleton, List.not_mem_nil,
    or_false] at hd
  obtain ⟨b, hb, rfl | rfl⟩ := hd
  · have := h b hb; omega
  · omega

/-- The loop that reads the pairs of hexadecimal characters gives the bytes back. -/
theorem hexToPadLoop_spec (bs : List Nat) (h : ∀ b ∈ bs, b < 256) (hl : bs.length ≤ 127) :
    ∀ (fuel k : Nat) (oKeyPad : List Nat), k ≤ bs.length → bs.length - k < fuel →
      hexToPadLoop (hexOfBytes bs) fuel (2 * k) oKeyPad = some (oKeyPad ++ bs.drop k) := by
  intro fuel
  induction fuel with
  | zero => intro k _ _ h2; omega
  | succ fuel ih =>
    intro k oKeyPad h1 h2
    rw [hexToPadLoop, hexOfBytes_length]
    by_cases hk : k < bs.length
    · rw [if_pos (by omega), substr, if_pos (by rw [hexOfBytes_length]; omega),
        Option.some_bind, hexOfBytes_drop, List.drop_eq_getElem_cons hk, hexOfBytes_cons]
      have e : (2 * k + 2) % 256 = 2 * (k + 1) := by omega
      have hb : bs[k] < 256 := h _ (List.getElem_mem hk)
      simp only [List.take_succ_cons, List.take_zero]
      rw [e, ih _ _ (by omega) (by omega)]
      have := strtoul16_hexOfBytes [bs[k]] (by simpa using hb)
      rw [hexOfBytes_cons, hexOfBytes_nil] at this
      rw [this]
      simp only [List.foldl_cons, List.foldl_nil, ULONG_MAX]
      have e2 : min (0 * 256 + bs[k]) (2 ^ 64 - 1) % 256 = bs[k] := by
        norm_num; omega
      rw [e2]
      simp
    · have e : k = bs.length := by omega
      subst e
      simp

/-! ## The key pads and the counter message -/

theorem keyPadLoop_spec (key : List Nat) (hk : key.length ≤ 64) :
    ∀ (fuel i : Nat) (ip op : List Nat), i ≤ key.length → ip.length = 64 → op.length = 64 →
      key.length - i < fuel →
      keyPadLoop key fuel i ip op
        = some (ip.take i ++ List.zipWith (fun x k => (x ^^^ k) % 256) (ip.drop i) (key.drop i)
                  ++ ip.drop key.length,
                op.take i ++ List.zipWith (fun x k => (x ^^^ k) % 256) (op.drop i) (key.drop i)
                  ++ op.drop key.length) := by
  intro fuel
  induction fuel with
  | zero => intro i ip op _ _ _ h; omega
  | succ fuel ih =>
    intro i ip op h1 h2 h3 h4
    rw [keyPadLoop]
    by_cases hi : i < key.length
    · have hip : i < ip.length := by omega
      have hop : i < op.length := by omega
      have e : (i + 1) % 256 = i + 1 := by omega
      rw [if_pos hi, store_of_lt _ hip, store_of_lt _ hop, Option.some_bind, Option.some_bind, e,
        ih _ _ _ (by omega) (by simpa using h2) (by simpa using h3) (by omega)]
      rw [take_set_succ _ _ _ hip, take_set_succ _ _ _ hop,
        List.drop_set_of_lt _ _ (by omega), List.drop_set_of_lt _ _ (by omega),
        List.drop_set_of_lt _ _ (by omega), List.drop_set_of_lt _ _ (by omega),
        List.drop_eq_getElem_cons hip, List.drop_eq_getElem_cons hop,
        List.drop_eq_getElem_cons hi, List.getD_eq_getElem _ _ hip, List.getD_eq_getElem _ _ hop,
        List.getD_eq_getElem _ _ hi]
      simp only [List.zipWith_cons_cons, List.append_assoc, List.cons_append, List.nil_append]
    · have e : i = key.length := by omega
      subst e
      rw [if_neg hi]
      simp

theorem zipWith_replicate (p : Nat) : ∀ (key : List Nat) (n : Nat), key.length ≤ n →
    List.zipWith (fun x k => (x ^^^ k) % 256) (List.replicate n p) key
      = key.map fun k => (p ^^^ k) % 256 := by
  intro key
  induction key with
  | nil => intro n _; simp
  | cons k ks ih =>
    intro n h
    cases n with
    | zero => simp at h
    | succ n =>
      rw [List.replicate_succ, List.zipWith_cons_cons, ih n (by simpa using h)]
      rfl

theorem keyPads_spec (key : List Nat) (hk : key.length ≤ 64) :
    keyPads key
      = some ((key.map fun k => (0x36 ^^^ k) % 256) ++ List.replicate (64 - key.length) 0x36,
              (key.map fun k => (0x5C ^^^ k) % 256) ++ List.replicate (64 - key.length) 0x5C) := by
  rw [keyPads, keyPadLoop_spec key hk 257 0 _ _ (by omega) (by simp) (by simp) (by omega)]
  simp only [List.take_zero, List.nil_append, List.drop_zero, zipWith_replicate _ key 64 hk,
    List.drop_replicate]

theorem and_255 (b : Nat) : b &&& 255 = b % 256 := Nat.and_pow_two_sub_one_eq_mod b 8

theorem ticksMessage_general (start : List Nat) (hs : start.length = 8) (c : Nat) :
    ticksMessage start c
      = some [start.getD 0 0, (c >>> 48) % 256, (c >>> 40) % 256, (c >>> 32) % 256,
              (c >>> 24) % 256, (c >>> 16) % 256, (c >>> 8) % 256, c % 256] := by
  match start, hs with
  | [x0, x1, x2, x3, x4, x5, x6, x7], _ =>
    simp [ticksMessage, ticksLoop, store, and_255, Nat.shiftRight_eq_div_pow,
      Nat.div_div_eq_div_mul]

theorem ticksMessage_spec (c : Nat) (hc : c < 2 ^ 32) :
    ticksMessage (List.replicate 8 0) c = some (counterMessage c) := by
  rw [ticksMessage_general _ (by simp)]
  simp only [counterMessage, bigEndian, List.range, List.range.loop, List.map,
    Nat.shiftRight_eq_div_pow]
  norm_num at hc ⊢
  omega

/-! ## The digest and the message authentication code -/

theorem transformToSHA1With_eq (garbage m : List Nat) (hg : garbage.length = 64) :
    transformToSHA1With garbage m = some (referenceSHA1 (m.map (· % 256))) := by
  rw [transformToSHA1With, digestState_eq garbage m hg, Option.map_some', hexString_eq,
    referenceSHA1]

theorem transformToSHA1_eq (m : List Nat) :
    transformToSHA1 m = some (referenceSHA1 (m.map (· % 256))) :=
  transformToSHA1With_eq _ m (by simp)

theorem map_mod_of_lt (m : List Nat) (h : ∀ b ∈ m, b < 256) : m.map (· % 256) = m := by
  induction m with
  | nil => rfl
  | cons b bs ih =>
    rw [List.map_cons, ih (fun x hx => h x (by simp [hx])), Nat.mod_eq_of_lt (h b (by simp))]

theorem bigEndian_length (k v : Nat) : (bigEndian k v).length = k := by
  simp [bigEndian]

theorem bigEndian_lt (k v : Nat) : ∀ b ∈ bigEndian k v, b < 256 := by
  intro b hb
  simp only [bigEndian, List.mem_map] at hb
  obtain ⟨i, -, rfl⟩ := hb
  exact Nat.mod_lt _ (by norm_num)

theorem wordBytes_length (H : List Nat) : (wordBytes H).length = 20 := by
  simp [wordBytes, List.length_flatMap, bigEndian_length, Function.comp_def]

theorem wordBytes_lt (H : List Nat) : ∀ b ∈ wordBytes H, b < 256 := by
  intro b hb
  simp only [wordBytes, List.mem_flatMap] at hb
  obtain ⟨k, -, hk⟩ := hb
  exact bigEndian_lt _ _ b hk

theorem hexDigits_getD_mem : ∀ d, d < 16 → hexDigits.getD d 0 ∈ hexDigits := by
  decide

theorem hexOfBytes_mem (bs : List Nat) (h : ∀ b ∈ bs, b < 256) :
    ∀ c ∈ hexOfBytes bs, c ∈ hexDigits := by
  intro c hc
  simp only [hexOfBytes, List.mem_flatMap, List.mem_cons, List.mem_singleton,
    List.not_mem_nil, or_false] at hc
  obtain ⟨b, hb, rfl | rfl⟩ := hc
  · exact hexDigits_getD_mem _ (by have := h b hb; omega)
  · exact hexDigits_getD_mem _ (by omega)

theorem referenceSHA1_length (m : List Nat) : (referenceSHA1 m).length = 40 := by
  rw [referenceSHA1, hexOfBytes_length, wordBytes_length]

theorem referenceSHA1_mem (m : List Nat) : ∀ c ∈ referenceSHA1 m, c ∈ hexDigits :=
  hexOfBytes_mem _ (wordBytes_lt _)

/-- The message authentication code of `generateToken`, for every key of at most 64 bytes
and every counter value. -/
theorem tokenMac_general (key : List Nat) (hk : key.length ≤ 64) (ticks : Nat) :
    tokenMac key ticks = some (referenceSHA1
      (((key.map fun k => (0x5C ^^^ k) % 256) ++ List.replicate (64 - key.length) 0x5C)
        ++ referenceSHA1Bytes
          (((key.map fun k => (0x36 ^^^ k) % 256) ++ List.replicate (64 - key.length) 0x36)
            ++ [0, (ticks >>> 48) % 256, (ticks >>> 40) % 256, (ticks >>> 32) % 256,
                (ticks >>> 24) % 256, (ticks >>> 16) % 256, (ticks >>> 8) % 256,
                ticks % 256]))) := by
  have hpad : ∀ p : Nat, p < 256 →
      ∀ b ∈ (key.map fun k => (p ^^^ k) % 256) ++ List.replicate (64 - key.length) p,
        b < 256 := by
    intro p hp b hb
    rw [List.mem_append] at hb
    rcases hb with hb | hb
    · rw [List.mem_map] at hb
      obtain ⟨k, -, rfl⟩ := hb
      exact Nat.mod_lt _ (by norm_num)
    · rw [List.eq_of_mem_replicate hb]; exact hp
  have hmsg : ∀ b ∈ [0, (ticks >>> 48) % 256, (ticks >>> 40) % 256, (ticks >>> 32) % 256,
      (ticks >>> 24) % 256, (ticks >>> 16) % 256, (ticks >>> 8) % 256, ticks % 256],
      b < 256 := by
    intro b hb
    simp only [List.mem_cons, List.mem_singleton, List.not_mem_nil, or_false] at hb
    rcases hb with rfl | rfl | rfl | rfl | rfl | rfl | rfl | rfl <;> omega
  rw [tokenMac, ticksMessage_general _ (by simp), Option.some_bind, keyPads_spec key hk,
    Option.some_bind]
  have e0 : (List.replicate 8 0).getD 0 0 = 0 := by decide
  rw [e0]
  rw [transformToSHA1_eq, Option.some_bind, map_mod_of_lt, referenceSHA1]
  · have h0 := hexToPadLoop_spec _ (wordBytes_lt (referenceState
        (((key.map fun k => (0x36 ^^^ k) % 256) ++ List.replicate (64 - key.length) 0x36)
            ++ [0, (ticks >>> 48) % 256, (ticks >>> 40) % 256, (ticks >>> 32) % 256,
                (ticks >>> 24) % 256, (ticks >>> 16) % 256, (ticks >>> 8) % 256,
                ticks % 256]))) (by rw [wordBytes_length]; omega) 129 0
        ((key.map fun k => (0x5C ^^^ k) % 256) ++ List.replicate (64 - key.length) 0x5C)
        (by omega) (by rw [wordBytes_length]; omega)
    rw [Nat.mul_zero, List.drop_zero] at h0
    rw [h0, Option.some_bind, transformToSHA1_eq, map_mod_of_lt, referenceSHA1Bytes]
    intro b hb
    rw [List.mem_append] at hb
    rcases hb with hb | hb
    · exact hpad _ (by norm_num) b hb
    · exact wordBytes_lt _ b hb
  · intro b hb
    rw [List.mem_append] at hb
    rcases hb with hb | hb
    · exact hpad _ (by norm_num) b hb
    · exact hmsg b hb

theorem xorPad_eq (key : List Nat) (p : Nat) (hp : p < 256) (h : ∀ b ∈ key, b < 256) :
    (key.map fun k => (p ^^^ k) % 256) ++ List.replicate (64 - key.length) p
      = xorPad key p := by
  rw [xorPad, List.map_append, List.map_replicate, Nat.zero_xor]
  congr 1
  apply List.map_congr_left
  intro k hk
  rw [Nat.xor_comm, Nat.mod_eq_of_lt]
  exact @Nat.xor_lt_two_pow _ _ 8 (h k hk) hp

theorem tokenMac_eq (key : List Nat) (hk : key.length ≤ 64) (hb : ∀ b ∈ key, b < 256)
    (ticks : Nat) (ht : ticks < 2 ^ 32) :
    tokenMac key ticks = some (referenceHMAC key (counterMessage ticks)) := by
  rw [tokenMac_general key hk, xorPad_eq key _ (by norm_num) hb,
    xorPad_eq key _ (by norm_num) hb, referenceHMAC]
  have e : [0, (ticks >>> 48) % 256, (ticks >>> 40) % 256, (ticks >>> 32) % 256,
      (ticks >>> 24) % 256, (ticks >>> 16) % 256, (ticks >>> 8) % 256, ticks % 256]
      = counterMessage ticks := by
    have h1 := ticksMessage_general (List.replicate 8 0) (by simp) ticks
    rw [ticksMessage_spec ticks ht] at h1
    simpa using h1.symm
  rw [e]

/-! ## The dynamic truncation -/

theorem be32_or (a b c d : Nat) (hb : b < 256) (hc : c < 256) (hd : d < 256) :
    (a <<< 24) ||| (b <<< 16) ||| (c <<< 8) ||| d
      = a * 16777216 + b * 65536 + c * 256 + d := by
  have h1 : 2 ^ 24 * a + b * 65536 = 2 ^ 24 * a ||| b * 65536 :=
    Nat.mul_add_lt_is_or (by omega) a
  have h2 : 2 ^ 16 * (a * 256 + b) + c * 256 = 2 ^ 16 * (a * 256 + b) ||| c * 256 :=
    Nat.mul_add_lt_is_or (by omega) _
  have h3 : 2 ^ 8 * (a * 65536 + b * 256 + c) + d = 2 ^ 8 * (a * 65536 + b * 256 + c) ||| d :=
    Nat.mul_add_lt_is_or (by omega) _
  have e1 : a <<< 24 = 2 ^ 24 * a := by rw [Nat.shiftLeft_eq, Nat.mul_comm]
  have e2 : b <<< 16 = b * 65536 := by rw [Nat.shiftLeft_eq]
  have e3 : c <<< 8 = c * 256 := by rw [Nat.shiftLeft_eq]
  rw [e1, e2, e3, ← h1]
  have e4 : 2 ^ 24 * a + b * 65536 = 2 ^ 16 * (a * 256 + b) := by omega
  rw [e4, ← h2]
  have e5 : 2 ^ 16 * (a * 256 + b) + c * 256 = 2 ^ 8 * (a * 65536 + b * 256 + c) := by omega
  rw [e5, ← h3]
  omega

theorem take4_drop (l : List Nat) (o : Nat) (h : o + 4 ≤ l.length) :
    (l.drop o).take 4 = [l.getD o 0, l.getD (o + 1) 0, l.getD (o + 2) 0, l.getD (o + 3) 0] := by
  rw [List.drop_eq_getElem_cons (by omega : o < l.length),
    List.drop_eq_getElem_cons (by omega : o + 1 < l.length),
    List.drop_eq_getElem_cons (by omega : o + 1 + 1 < l.length),
    List.drop_eq_getElem_cons (by omega : o + 1 + 1 + 1 < l.length)]
  simp only [List.take_succ_cons, List.take_zero]
  rw [List.getD_eq_getElem _ _ (by omega : o < l.length),
    List.getD_eq_getElem _ _ (by omega : o + 1 < l.length),
    List.getD_eq_getElem _ _ (by omega : o + 2 < l.length),
    List.getD_eq_getElem _ _ (by omega : o + 3 < l.length)]

theorem getD_lt (l : List Nat) (h : ∀ b ∈ l, b < 256) (i : Nat) : l.getD i 0 < 256 := by
  by_cases hi : i < l.length
  · rw [List.getD_eq_getElem _ _ hi]; exact h _ (List.getElem_mem hi)
  · rw [List.getD_eq_default _ _ (by omega)]; norm_num

theorem tokenOffset_spec (mac : List Nat) (hl : mac.length = 20) :
    tokenOffset (hexOfBytes mac) = some (mac.getD 19 0 &&& 0x0F) := by
  have hlen : (hexOfBytes mac).length = 40 := by rw [hexOfBytes_length, hl]
  have hd : (hexOfBytes mac).drop 39 = [hexDigits.getD (mac.getD 19 0 % 16) 0] := by
    have e : (39 : Nat) = 2 * 19 + 1 := by norm_num
    have e20 : mac.drop (19 + 1) = [] := List.drop_of_length_le (by omega)
    rw [e, ← List.drop_drop, hexOfBytes_drop, List.drop_eq_getElem_cons (by omega : 19 < mac.length),
      e20, hexOfBytes_cons, hexOfBytes_nil,
      List.getD_eq_getElem _ _ (by omega : 19 < mac.length)]
    rfl
  have hs := strtoul16_hex [mac.getD 19 0 % 16] (by intro d hd; simp at hd; omega)
  simp only [List.map_cons, List.map_nil, List.foldl_cons, List.foldl_nil, ULONG_MAX] at hs
  rw [tokenOffset, substr, if_pos (by omega), hd, Option.some_bind]
  simp only [List.take_succ_cons, List.take_zero]
  rw [hs, and_15, and_15]
  congr 1
  have := Nat.mod_lt (mac.getD 19 0) (by norm_num : 16 > 0)
  norm_num
  omega

/-- The dynamic truncation of `generateToken` on the hexadecimal form of a 20-byte code. -/
theorem tokenTruncHash_spec (mac : List Nat) (hl : mac.length = 20) (hb : ∀ b ∈ mac, b < 256) :
    tokenTruncHash (hexOfBytes mac) = some (referenceTruncation mac) := by
  have hlen : (hexOfBytes mac).length = 40 := by rw [hexOfBytes_length, hl]
  have ho : mac.getD 19 0 &&& 0x0F < 16 := by
    rw [and_15]; exact Nat.mod_lt _ (by norm_num)
  rw [tokenTruncHash, tokenOffset_spec mac hl, Option.some_bind, substr,
    if_pos (by omega), Option.some_bind]
  have e8 : (8 : Nat) = 2 * 4 := by norm_num
  rw [e8, hexOfBytes_drop, hexOfBytes_take, take4_drop _ _ (by omega)]
  have b0 := getD_lt mac hb (mac.getD 19 0 &&& 0x0F)
  have b1 := getD_lt mac hb ((mac.getD 19 0 &&& 0x0F) + 1)
  have b2 := getD_lt mac hb ((mac.getD 19 0 &&& 0x0F) + 2)
  have b3 := getD_lt mac hb ((mac.getD 19 0 &&& 0x0F) + 3)
  rw [strtoul16_hexOfBytes _ (by
    intro b hb
    simp only [List.mem_cons, List.mem_singleton, List.not_mem_nil, or_false] at hb
    rcases hb with rfl | rfl | rfl | rfl <;> assumption)]
  simp only [List.foldl_cons, List.foldl_nil, ULONG_MAX, referenceTruncation]
  have m1 : ∀ x : Nat, x &&& 0x7FFFFFFF = x % 2 ^ 31 := fun x =>
    Nat.and_pow_two_sub_one_eq_mod x 31
  have m2 : ∀ x : Nat, x &&& 0x7F = x % 2 ^ 7 := fun x =>
    Nat.and_pow_two_sub_one_eq_mod x 7
  rw [m1, m2, be32_or _ _ _ _ b1 b2 b3]
  congr 1
  generalize mac.getD (mac.getD 19 0 &&& 0x0F) 0 = x0 at *
  generalize mac.getD ((mac.getD 19 0 &&& 0x0F) + 1) 0 = x1 at *
  generalize mac.getD ((mac.getD 19 0 &&& 0x0F) + 2) 0 = x2 at *
  generalize mac.getD ((mac.getD 19 0 &&& 0x0F) + 3) 0 = x3 at *
  norm_num
  omega

/-! ## The decimal digits -/

theorem lastDecimalDigits_length (D t : Nat) : (lastDecimalDigits D t).length = D := by
  simp [lastDecimalDigits]

theorem lastDecimalDigits_succ (L t : Nat) :
    lastDecimalDigits (L + 1) t = (48 + t / 10 ^ L % 10) :: lastDecimalDigits L t := by
  simp only [lastDecimalDigits, List.range_succ_eq_map, List.map_cons, List.map_map]
  congr 1
  apply List.map_congr_left
  intro i _
  simp only [Function.comp, Nat.add_sub_cancel, Nat.succ_eq_add_one]
  rw [show L - (i + 1) = L - 1 - i from by omega]

theorem lastDecimalDigits_snoc (L t : Nat) :
    lastDecimalDigits (L + 1) t = lastDecimalDigits L (t / 10) ++ [48 + t % 10] := by
  simp only [lastDecimalDigits, List.range_succ, List.map_append, List.map_cons, List.map_nil]
  congr 1
  · apply List.map_congr_left
    intro i hi
    rw [List.mem_range] at hi
    have e : L + 1 - 1 - i = (L - 1 - i) + 1 := by omega
    rw [e, Nat.pow_succ, Nat.div_div_eq_div_mul, Nat.mul_comm]
  · simp

theorem lastDecimalDigits_drop : ∀ (L k t : Nat), k ≤ L →
    (lastDecimalDigits L t).drop (L - k) = lastDecimalDigits k t := by
  intro L
  induction L with
  | zero => intro k t h; have : k = 0 := by omega
            subst this; rfl
  | succ L ih =>
    intro k t h
    by_cases hk : k = L + 1
    · subst hk; simp
    · have e : L + 1 - k = (L - k) + 1 := by omega
      rw [lastDecimalDigits_succ, e, List.drop_succ_cons, ih k t (by omega)]

theorem lastDecimalDigits_pad : ∀ (n L t : Nat), t < 10 ^ L →
    lastDecimalDigits (L + n) t = List.replicate n 48 ++ lastDecimalDigits L t := by
  intro n
  induction n with
  | zero => intro L t _; simp
  | succ n ih =>
    intro L t h
    have e : L + (n + 1) = (L + n) + 1 := by omega
    have hlt : t < 10 ^ (L + n) :=
      lt_of_lt_of_le h (Nat.pow_le_pow_right (by norm_num) (by omega))
    rw [e, lastDecimalDigits_succ, ih L t h, Nat.div_eq_of_lt hlt, List.replicate_succ]
    rfl

/-- The digits that `to_string` produces. -/
theorem toStringLoop_spec : ∀ (fuel n : Nat) (acc : List Nat), n < fuel →
    ∃ L, 1 ≤ L ∧ n < 10 ^ L ∧ (L = 1 ∨ 10 ^ (L - 1) ≤ n) ∧
      toStringLoop fuel n acc = lastDecimalDigits L n ++ acc := by
  intro fuel
  induction fuel with
  | zero => intro n acc h; omega
  | succ fuel ih =>
    intro n acc h
    rw [toStringLoop]
    by_cases h10 : n / 10 = 0
    · rw [if_pos h10]
      refine ⟨1, le_refl _, by omega, Or.inl rfl, ?_⟩
      simp [lastDecimalDigits]
    · rw [if_neg h10]
      obtain ⟨L, h1, h2, h3, h4⟩ := ih (n / 10) ((48 + n % 10) :: acc) (by omega)
      refine ⟨L + 1, by omega, ?_, Or.inr ?_, ?_⟩
      · rw [Nat.pow_succ]; omega
      · rw [Nat.add_sub_cancel]
        rcases h3 with h3 | h3
        · subst h3; omega
        · have e : L = (L - 1) + 1 := by omega
          rw [e, Nat.pow_succ]; omega
      · rw [h4, lastDecimalDigits_snoc]; simp

theorem to_string_spec (n : Nat) :
    ∃ L, 1 ≤ L ∧ n < 10 ^ L ∧ (L = 1 ∨ 10 ^ (L - 1) ≤ n) ∧
      to_string n = lastDecimalDigits L n := by
  obtain ⟨L, h1, h2, h3, h4⟩ := toStringLoop_spec (n + 1) n [] (by omega)
  exact ⟨L, h1, h2, h3, by rw [to_string, h4, List.append_nil]⟩

/-- The last step of `generateToken` yields the `D` least significant decimal digits. -/
theorem tokenDigits_spec (D t : Nat) : tokenDigits D t = some (lastDecimalDigits D t) := by
  obtain ⟨L, h1, h2, -, h4⟩ := to_string_spec t
  simp only [tokenDigits, h4, lastDecimalDigits_length, substrFrom]
  rw [if_pos (by omega), Option.some_bind, lastDecimalDigits_drop L _ t (by omega)]
  by_cases hD : L ≤ D
  · rw [Nat.min_eq_left hD]
    have e : D = L + (D - L) := by omega
    conv_rhs => rw [e]
    rw [lastDecimalDigits_pad _ _ _ h2]
  · rw [Nat.min_eq_right (by omega)]
    simp

theorem lastDecimalDigits_mod (D t : Nat) :
    lastDecimalDigits D (t % 10 ^ D) = lastDecimalDigits D t := by
  simp only [lastDecimalDigits]
  apply List.map_congr_left
  intro i hi
  rw [List.mem_range] at hi
  have e : 10 ^ D = 10 ^ (D - 1 - i) * 10 ^ (i + 1) := by
    rw [← Nat.pow_add]; congr 1; omega
  congr 1
  rw [e, Nat.mod_mul_right_div_self, Nat.mod_mod_of_dvd _ (dvd_pow_self 10 (by omega))]

theorem leftPad_to_string (D t : Nat) (hD : 1 ≤ D) :
    leftPad D (to_string (t % 10 ^ D)) = lastDecimalDigits D t := by
  obtain ⟨L, h1, h2, h3, h4⟩ := to_string_spec (t % 10 ^ D)
  have hlt : t % 10 ^ D < 10 ^ D := Nat.mod_lt _ (Nat.pos_pow_of_pos _ (by norm_num))
  have hL : L ≤ D := by
    rcases h3 with h3 | h3
    · omega
    · by_contra hc
      have : 10 ^ D ≤ 10 ^ (L - 1) := Nat.pow_le_pow_right (by norm_num) (by omega)
      omega
  have hp := lastDecimalDigits_pad (D - L) L _ h2
  rw [show L + (D - L) = D from by omega, lastDecimalDigits_mod] at hp
  rw [leftPad, h4, lastDecimalDigits_length, hp]

/-! ## Blocks of the padded input and test vectors -/

theorem blocksN_flatten : ∀ (k : Nat) (l : List Nat), 64 * k ≤ l.length →
    (blocksN k l).flatten = l.take (64 * k) := by
  intro k
  induction k with
  | zero => intro l _; simp [blocksN]
  | succ k ih =>
    intro l h
    rw [blocksN, List.flatten_cons, ih _ (by rw [List.length_drop]; omega)]
    have e : 64 * (k + 1) = 64 + 64 * k := by omega
    rw [e, List.take_add]

theorem pad_length (m : List Nat) : (pad m).length = m.length + 1 + zeroCount m.length + 8 := by
  simp only [pad, lengthField, bigEndian_length, List.length_append, List.length_cons,
    List.length_nil, List.length_replicate]

theorem zeroCount_spec (n : Nat) :
    (n + 1 + zeroCount n + 8) % 64 = 0 ∧ ∀ k, k < zeroCount n → (n + 1 + k + 8) % 64 ≠ 0 := by
  unfold zeroCount
  constructor
  · omega
  · intro k hk; omega

theorem blocks_pad_flatten (m : List Nat) : (blocks (pad m)).flatten = pad m := by
  have h := (zeroCount_spec m.length).1
  rw [← pad_length] at h
  rw [blocks, blocksN_flatten _ _ (by omega), List.take_of_length_le (by omega)]

theorem bytes_hexDigits : bytes "0123456789abcdef" = hexDigits := by decide

set_option maxRecDepth 1000000 in
theorem sha1_empty_value :
    transformToSHA1 (bytes "") = some (bytes "da39a3ee5e6b4b0d3255bfef95601890afd80709") := by
  decide

set_option maxRecDepth 1000000 in
theorem sha1_abc_value :
    transformToSHA1 (bytes "abc") = some (bytes "a9993e364706816aba3e25717850c26c9cd0d89d") := by
  decide

set_option maxRecDepth 1000000 in
theorem token_value_0 :
    generateToken 6 (bytes "12345678901234567890") 0 = some (bytes "755224") := by
  decide

/-- C1. With `AUTHENTICATOR_DIGITS = 6`, `generateToken` on the 20-byte key
`12345678901234567890` and the counter 0 returns the string `755224`. -/
theorem generateToken_vector_zero :
    generateToken 6 (bytes "12345678901234567890") 0 = some (bytes "755224") :=
  token_value_0

/-- C2. `transformToSHA1` on the empty string returns
`da39a3ee5e6b4b0d3255bfef95601890afd80709`. -/
theorem transformToSHA1_empty :
    transformToSHA1 (bytes "") = some (bytes "da39a3ee5e6b4b0d3255bfef95601890afd80709") :=
  sha1_empty_value

/-- C3, as stated, fails: on the string `abc` the result of `transformToSHA1` is not the
39-character string `a9993e364706816aba3e25717850c26c9cd0d89` of the claim. -/
theorem transformToSHA1_abc_not_claimed :
    transformToSHA1 (bytes "abc") ≠ some (bytes "a9993e364706816aba3e25717850c26c9cd0d89") := by
  rw [sha1_abc_value]
  decide

/-- C3, amended. `transformToSHA1` on the 3-byte string `abc` returns the 40-character
string `a9993e364706816aba3e25717850c26c9cd0d89d`. -/
theorem transformToSHA1_abc :
    transformToSHA1 (bytes "abc") = some (bytes "a9993e364706816aba3e25717850c26c9cd0d89d") :=
  sha1_abc_value

/-- C4. For every key of at most 64 bytes and every 32-bit counter, the 40 hexadecimal
characters that `generateToken` has behind its second pass are the reference HMAC-SHA1 of
the 8-byte counter message, `SHA1((K xor opad) ++ rawbytes(SHA1((K xor ipad) ++ message)))`
with `K` the key extended with zero bytes to 64 bytes, and the token is computed from that
value. -/
theorem generateToken_mac_is_hmac (D : Nat) (key : List Nat) (ticks : Nat)
    (hk : key.length ≤ 64) (hb : ∀ b ∈ key, b < 256) (ht : ticks < 2 ^ 32) :
    tokenMac key ticks = some (referenceHMAC key (counterMessage ticks)) ∧
    generateToken D key ticks
      = (tokenTruncHash (referenceHMAC key (counterMessage ticks))).bind (tokenDigits D) := by
  have h := tokenMac_eq key hk hb ticks ht
  exact ⟨h, by rw [generateToken, h, Option.some_bind]⟩

/-- C4 at the key `[1, 2, 3]` and the counter 5. -/
theorem generateToken_mac_is_hmac_witness :
    ([1, 2, 3] : List Nat).length ≤ 64 ∧ (∀ b ∈ ([1, 2, 3] : List Nat), b < 256) ∧
    5 < 2 ^ 32 ∧
    tokenMac [1, 2, 3] 5 = some (referenceHMAC [1, 2, 3] (counterMessage 5)) :=
  ⟨by decide, by decide, by decide,
    (generateToken_mac_is_hmac 6 [1, 2, 3] 5 (by decide) (by decide) (by decide)).1⟩

/-- C5. For every input byte string `m`, and whatever the uninitialised block buffer
holds at the start, `transformToSHA1` returns the reference "pad then fold" digest: the
block compression folded, from the five initial words, over the consecutive 64-byte blocks
of `pad m = m ++ [0x80] ++ zeros ++ lengthField`, where the number of zero bytes is the
least one that makes the length a multiple of 64 (so the blocks are the whole of `pad m`).
The reference has no buffer, so no byte left in the buffer by an earlier block enters a
later one. -/
theorem transformToSHA1_pad_then_fold (garbage m : List Nat) (hg : garbage.length = 64)
    (hm : ∀ b ∈ m, b < 256) :
    transformToSHA1With garbage m = some (referenceSHA1 m) ∧
    transformToSHA1 m = some (referenceSHA1 m) ∧
    referenceSHA1 m = hexString ((blocks (pad m)).foldl
      (fun acc b => processSHA1MessageBlock b acc) initialH) ∧
    (blocks (pad m)).flatten = pad m ∧
    (m.length + 1 + zeroCount m.length + 8) % 64 = 0 ∧
    (∀ k, k < zeroCount m.length → (m.length + 1 + k + 8) % 64 ≠ 0) := by
  have e := map_mod_of_lt m hm
  refine ⟨?_, ?_, ?_, blocks_pad_flatten m, (zeroCount_spec m.length).1,
    (zeroCount_spec m.length).2⟩
  · rw [transformToSHA1With_eq garbage m hg, e]
  · rw [transformToSHA1_eq, e]
  · rw [hexString_eq, referenceSHA1, referenceState, foldBlocks]

/-- C5 at the input `abc` and a buffer that starts as 64 bytes of value 7. -/
theorem transformToSHA1_pad_then_fold_witness :
    (List.replicate 64 7).length = 64 ∧ (∀ b ∈ ([97, 98, 99] : List Nat), b < 256) ∧
    transformToSHA1With (List.replicate 64 7) [97, 98, 99]
      = some (referenceSHA1 [97, 98, 99]) :=
  ⟨by decide, by decide,
    (transformToSHA1_pad_then_fold (List.replicate 64 7) [97, 98, 99] (by decide)
      (by decide)).1⟩

/-- C7. For every input byte string `transformToSHA1` returns a string of exactly 40
characters, each of which is one of `0123456789abcdef`. -/
theorem transformToSHA1_format (input : List Nat) :
    ∃ s, transformToSHA1 input = some s ∧ s.length = 40 ∧
      ∀ c ∈ s, c ∈ bytes "0123456789abcdef" := by
  refine ⟨_, transformToSHA1_eq input, referenceSHA1_length _, ?_⟩
  rw [bytes_hexDigits]
  exact referenceSHA1_mem _

/-- C8. For every 20-byte MAC, given as its 40 hexadecimal characters, the value
`truncHash` of `generateToken` is the reference dynamic truncation: with
`offset = (last MAC byte) AND 0x0F` it is
`((mac[offset] AND 0x7F) << 24) | (mac[offset+1] << 16) | (mac[offset+2] << 8) | mac[offset+3]`;
`offset + 3 <= 18`, and the substring read at `2 * offset` has its full 8 characters,
those of the four bytes from `offset` on. -/
theorem generateToken_truncation (mac : List Nat) (hl : mac.length = 20)
    (hb : ∀ b ∈ mac, b < 256) :
    tokenOffset (hexOfBytes mac) = some (mac.getD 19 0 &&& 0x0F) ∧
    tokenTruncHash (hexOfBytes mac) = some (referenceTruncation mac) ∧
    (mac.getD 19 0 &&& 0x0F) + 3 ≤ 18 ∧
    2 * (mac.getD 19 0 &&& 0x0F) + 8 ≤ (hexOfBytes mac).length ∧
    ∃ s, substr (hexOfBytes mac) (2 * (mac.getD 19 0 &&& 0x0F)) 8 = some s ∧ s.length = 8 ∧
      s = hexOfBytes ((mac.drop (mac.getD 19 0 &&& 0x0F)).take 4) := by
  have ho : mac.getD 19 0 &&& 0x0F < 16 := by
    rw [and_15]; exact Nat.mod_lt _ (by norm_num)
  have hlen : (hexOfBytes mac).length = 40 := by rw [hexOfBytes_length, hl]
  refine ⟨tokenOffset_spec mac hl, tokenTruncHash_spec mac hl hb, by omega, by omega, ?_⟩
  have e8 : (8 : Nat) = 2 * 4 := by norm_num
  refine ⟨_, by rw [substr, if_pos (by omega)], ?_, ?_⟩
  · rw [List.length_take, List.length_drop, hlen]; omega
  · rw [e8, hexOfBytes_drop, hexOfBytes_take]

/-- C8 at the MAC whose bytes are 0, 1, ..., 19. -/
theorem generateToken_truncation_witness :
    (List.range 20).length = 20 ∧ (∀ b ∈ List.range 20, b < 256) ∧
    tokenTruncHash (hexOfBytes (List.range 20)) = some (referenceTruncation (List.range 20)) :=
  ⟨by decide, by decide,
    (generateToken_truncation (List.range 20) (by decide) (by decide)).2.1⟩

/-- C9. For every truncated value `t` (below `2 ^ 31` or not) and every digit width
`D >= 1`, the last step of `generateToken` returns the decimal representation of
`t mod 10 ^ D` left-padded with `0` to exactly `D` characters, which is the string of the
`D` least significant decimal digits of `t`. -/
theorem generateToken_last_digits (D t : Nat) (hD : 1 ≤ D) :
    tokenDigits D t = some (leftPad D (to_string (t % 10 ^ D))) ∧
    leftPad D (to_string (t % 10 ^ D)) = lastDecimalDigits D t ∧
    (leftPad D (to_string (t % 10 ^ D))).length = D := by
  have h := leftPad_to_string D t hD
  exact ⟨by rw [h, tokenDigits_spec], h, by rw [h, lastDecimalDigits_length]⟩

/-- C9 at the value 1234567890 and six digits. -/
theorem generateToken_last_digits_witness :
    1 ≤ 6 ∧ tokenDigits 6 1234567890 = some (leftPad 6 (to_string (1234567890 % 10 ^ 6))) :=
  ⟨by decide, (generateToken_last_digits 6 1234567890 (by decide)).1⟩

/-- C10. For every 32-bit counter `c` the message that `generateToken` builds is 8 bytes
long, its bytes 0 to 3 are zero and its bytes 4 to 7 are the big-endian encoding of `c`
(byte 7 is `c mod 256`, byte 4 is `c >> 24`); the loop never writes byte 0: from any
8-byte start the result keeps the first byte of the start. -/
theorem generateToken_message (c : Nat) (hc : c < 2 ^ 32) :
    ticksMessage (List.replicate 8 0) c
      = some [0, 0, 0, 0, c >>> 24, (c >>> 16) % 256, (c >>> 8) % 256, c % 256] ∧
    [0, 0, 0, 0, c >>> 24, (c >>> 16) % 256, (c >>> 8) % 256, c % 256] = counterMessage c ∧
    [c >>> 24, (c >>> 16) % 256, (c >>> 8) % 256, c % 256] = bigEndian 4 c ∧
    (∀ start : List Nat, start.length = 8 →
      ticksMessage start c
        = some [start.getD 0 0, 0, 0, 0, c >>> 24, (c >>> 16) % 256, (c >>> 8) % 256,
                c % 256]) := by
  have hg : ∀ start : List Nat, start.length = 8 →
      ticksMessage start c
        = some [start.getD 0 0, 0, 0, 0, c >>> 24, (c >>> 16) % 256, (c >>> 8) % 256,
                c % 256] := by
    intro start hs
    rw [ticksMessage_general start hs]
    simp only [Nat.shiftRight_eq_div_pow]
    norm_num at hc ⊢
    omega
  have h0 := hg (List.replicate 8 0) (by simp)
  have e0 : (List.replicate 8 0).getD 0 0 = 0 := by decide
  rw [e0] at h0
  refine ⟨h0, ?_, ?_, hg⟩
  · have h1 := ticksMessage_spec c hc
    rw [h0] at h1
    exact Option.some.inj h1
  · simp only [bigEndian, List.range, List.range.loop, List.map, Nat.shiftRight_eq_div_pow]
    norm_num at hc ⊢
    omega

/-- C10 at the counter 305419896 (`0x12345678`). -/
theorem generateToken_message_witness :
    305419896 < 2 ^ 32 ∧
    ticksMessage (List.replicate 8 0) 305419896
      = some [0, 0, 0, 0, 305419896 >>> 24, (305419896 >>> 16) % 256,
              (305419896 >>> 8) % 256, 305419896 % 256] :=
  ⟨by decide, (generateToken_message 305419896 (by decide)).1⟩

/-! ## The record of the calls of the block compression -/

theorem inputStepCalls_eq (s : Ctx) (c ch : Nat) :
    inputStepCalls s c ch
      = (inputStep s ch).map fun s1 => (s1, if s.index + 1 = 64 then c + 1 else c) := by
  unfold inputStepCalls inputStep
  cases store s.messageBlock s.index ch with
  | none => rfl
  | some mb =>
    simp only [Option.some_bind]
    split <;> rfl

theorem inputStep_index (s s1 : Ctx) (ch : Nat) (h : inputStep s ch = some s1) :
    s1.index = if s.index + 1 = 64 then 0 else s.index + 1 := by
  unfold inputStep at h
  cases hs : store s.messageBlock s.index ch with
  | none => simp [hs] at h
  | some mb =>
    simp only [hs, Option.some_bind] at h
    split at h <;> (injection h with h; subst h; simp [*])

/-- The number of calls of the block compression in the input loop. -/
theorem inputLoopCalls_eq : ∀ (m : List Nat) (s : Ctx) (c : Nat), s.index < 64 →
    inputLoopCalls s c m
      = (inputLoop s m).map fun s1 => (s1, c + (s.index + m.length) / 64) := by
  intro m
  induction m with
  | nil =>
    intro s c h
    simp only [inputLoopCalls, inputLoop, Option.map_some', List.length_nil, Nat.add_zero]
    rw [Nat.div_eq_of_lt h]
    rfl
  | cons ch rest ih =>
    intro s c h
    simp only [inputLoopCalls, inputLoop, inputStepCalls_eq]
    cases hs : inputStep s ch with
    | none => rfl
    | some s1 =>
      have hi := inputStep_index s s1 ch hs
      simp only [Option.map_some', Option.some_bind]
      rw [ih s1 _ (by rw [hi]; split <;> omega)]
      congr 1
      funext s2
      congr 1
      rw [hi]
      simp only [List.length_cons]
      split <;> omega

theorem finishTraced_spec (s : Ctx) (c : Nat) (h1 : s.messageBlock.length = 64)
    (h2 : s.index < 64) :
    ∃ B, finishTraced s c = (finish s).map (fun H =>
        (H, { calls := c + (if s.index + 1 > 56 then 2 else 1),
              extraBlock := decide (s.index + 1 > 56), lastBlock := B })) ∧
      B.length = 64 ∧
      B.drop 56 = [(s.length_high >>> 24) % 256, (s.length_high >>> 16) % 256,
         (s.length_high >>> 8) % 256, s.length_high % 256,
         (s.length_low >>> 24) % 256, (s.length_low >>> 16) % 256,
         (s.length_low >>> 8) % 256, s.length_low % 256] := by
  have hidx : s.index < s.messageBlock.length := by omega
  have hlen1 : (s.messageBlock.set s.index (0x80 % 256)).length = 64 := by simpa using h1
  unfold finishTraced finish
  rw [store_of_lt _ hidx, Option.some_bind, Option.some_bind]
  by_cases h56 : s.index + 1 > 56
  · simp only [if_pos h56]
    rw [zeroFill_spec 64 65 _ _ (by omega) (by omega) (by omega)]
    simp only [Option.some_bind]
    rw [zeroFill_spec 56 65 _ _ (by omega) (by simp; omega) (by omega)]
    simp only [Option.some_bind, List.take_zero, List.nil_append, Nat.sub_zero]
    refine ⟨List.replicate 56 0 ++ [(s.length_high >>> 24) % 256, (s.length_high >>> 16) % 256,
         (s.length_high >>> 8) % 256, s.length_high % 256,
         (s.length_low >>> 24) % 256, (s.length_low >>> 16) % 256,
         (s.length_low >>> 8) % 256, s.length_low % 256], ?_, ?_, ?_⟩
    · refine (store8 _ _ (by simp) (by simp; omega) _ _ _ _ _ _ _ _ _).trans ?_
      refine Eq.trans ?_ (congrArg _ (store8 _ _ (by simp) (by simp; omega)
        _ _ _ _ _ _ _ _ _).symm)
      simp [h56]
    · simp
    · rw [List.drop_left' (by simp)]
  · simp only [if_neg h56, Option.some_bind]
    rw [zeroFill_spec 56 65 _ _ (by omega) (by omega) (by omega)]
    simp only [Option.some_bind]
    refine ⟨(List.take (s.index + 1) (s.messageBlock.set s.index (0x80 % 256))
      ++ List.replicate (56 - (s.index + 1)) 0) ++ [(s.length_high >>> 24) % 256, (s.length_high >>> 16) % 256,
         (s.length_high >>> 8) % 256, s.length_high % 256,
         (s.length_low >>> 24) % 256, (s.length_low >>> 16) % 256,
         (s.length_low >>> 8) % 256, s.length_low % 256], ?_, ?_, ?_⟩
    · refine (store8 _ _ (by simp; omega) (by simp; omega) _ _ _ _ _ _ _ _ _).trans ?_
      refine Eq.trans ?_ (congrArg _ (store8 _ _ (by simp; omega) (by simp; omega)
        _ _ _ _ _ _ _ _ _).symm)
      simp [h56]
    · simp; omega
    · rw [List.drop_left' (by simp; omega)]


/-- The record of a run of `transformToSHA1`. -/
theorem digestStateTraced_spec (garbage m : List Nat) (hg : garbage.length = 64) :
    ∃ B, digestStateTraced garbage m
        = some (referenceState (m.map (· % 256)),
            { calls := (m.length + 8) / 64 + 1, extraBlock := decide (56 ≤ m.length % 64),
              lastBlock := B }) ∧
      B.length = 64 ∧ B.drop 56 = lengthField m.length := by
  obtain ⟨s1, e1, l1, i1, -⟩ := inputLoop_spec m
    { H := initialH, messageBlock := garbage, index := 0, length_low := 0, length_high := 0 }
    hg (by simp)
  obtain ⟨c1, -, -, c4⟩ := inputLoop_length m _ s1 e1 (by simp) (by simp) (by simp)
  have hi : s1.index < 64 := by rw [i1]; exact Nat.mod_lt _ (by norm_num)
  have hd := digestState_eq garbage m hg
  rw [digestState, e1, Option.some_bind] at hd
  obtain ⟨B, hB, hBl, hBd⟩ := finishTraced_spec s1 (0 + (0 + m.length) / 64) l1 hi
  refine ⟨B, ?_, hBl, ?_⟩
  · rw [digestStateTraced, inputLoopCalls_eq m _ 0 (by simp), e1]
    simp only [Option.map_some', Option.some_bind]
    rw [hB, hd, Option.map_some']
    simp only [Nat.zero_add] at i1 ⊢
    have ec : m.length / 64 + (if s1.index + 1 > 56 then 2 else 1) = (m.length + 8) / 64 + 1 := by
      rw [i1]; split <;> omega
    have ee : decide (s1.index + 1 > 56) = decide (56 ≤ m.length % 64) := by
      rw [i1]; apply decide_eq_decide.mpr; omega
    rw [ec, ee]
  · rw [hBd, ← bigEndian8_of_halves _ _ c1, c4, lengthField]
    simp

/-! ## The rounds of the block compression -/

theorem circularShift_eq_rotateLeft32 (k v : Nat) (h1 : 1 ≤ k) (h2 : k ≤ 31)
    (hv : v < 2 ^ 32) : circularShift k v = rotateLeft32 k v := by
  have e32 : 2 ^ 32 = 2 ^ (32 - k) * 2 ^ k := by
    rw [← Nat.pow_add]; congr 1; omega
  have hlt : v / 2 ^ (32 - k) < 2 ^ k := by
    rw [Nat.div_lt_iff_lt_mul (Nat.pos_pow_of_pos _ (by norm_num)), Nat.mul_comm, ← e32]
    exact hv
  rw [circularShift, rotateLeft32, Nat.shiftLeft_eq, Nat.shiftRight_eq_div_pow]
  conv_lhs => rw [e32, Nat.mul_mod_mul_right]
  rw [Nat.mul_comm (v % 2 ^ (32 - k)) (2 ^ k), ← Nat.mul_add_lt_is_or hlt]

theorem circularShift_lt (k v : Nat) (h1 : 1 ≤ k) (h2 : k ≤ 31) (hv : v < 2 ^ 32) :
    circularShift k v < 2 ^ 32 := by
  have e32 : 2 ^ 32 = 2 ^ (32 - k) * 2 ^ k := by
    rw [← Nat.pow_add]; congr 1; omega
  have hlt : v / 2 ^ (32 - k) < 2 ^ k := by
    rw [Nat.div_lt_iff_lt_mul (Nat.pos_pow_of_pos _ (by norm_num)), Nat.mul_comm, ← e32]
    exact hv
  rw [circularShift, Nat.shiftRight_eq_div_pow]
  apply Nat.or_lt_two_pow
  · exact Nat.mod_lt _ (by norm_num)
  · exact lt_of_lt_of_le hlt (Nat.pow_le_pow_right (by norm_num) (by omega))

theorem round1_eq : round1 = roundWith (phaseFunction 0) (phaseConstant 0) := rfl
theorem round2_eq : round2 = roundWith (phaseFunction 1) (phaseConstant 1) := rfl
theorem round3_eq : round3 = roundWith (phaseFunction 2) (phaseConstant 2) := rfl
theorem round4_eq : round4 = roundWith (phaseFunction 3) (phaseConstant 3) := rfl

theorem roundWith_eq_referenceRound (W : List Nat) (v : Vars) (i p : Nat) (hp : i / 20 = p)
    (hA : v.A < 2 ^ 32) (hB : v.B < 2 ^ 32) :
    roundWith (phaseFunction p) (phaseConstant p) W v i = referenceRound W v i := by
  rw [roundWith, referenceRound, rotateVars, hp,
    circularShift_eq_rotateLeft32 5 _ (by norm_num) (by norm_num) hA,
    circularShift_eq_rotateLeft32 30 _ (by norm_num) (by norm_num) hB]

theorem referenceRound_bounds (W : List Nat) (v : Vars) (i : Nat) (hA : v.A < 2 ^ 32) :
    (referenceRound W v i).A < 2 ^ 32 ∧ (referenceRound W v i).B < 2 ^ 32 :=
  ⟨Nat.mod_lt _ (by norm_num), hA⟩

theorem foldl_rounds (W : List Nat) (f : Vars → Nat → Vars) :
    ∀ (l : List Nat) (v : Vars),
      (∀ (u : Vars) (i : Nat), i ∈ l → u.A < 2 ^ 32 → u.B < 2 ^ 32 →
        f u i = referenceRound W u i) →
      v.A < 2 ^ 32 → v.B < 2 ^ 32 →
      l.foldl f v = l.foldl (referenceRound W) v ∧
        (l.foldl (referenceRound W) v).A < 2 ^ 32 ∧
        (l.foldl (referenceRound W) v).B < 2 ^ 32 := by
  intro l
  induction l with
  | nil => intro v _ hA hB; exact ⟨rfl, hA, hB⟩
  | cons i rest ih =>
    intro v hf hA hB
    have hb := referenceRound_bounds W v i hA
    rw [List.foldl_cons, List.foldl_cons, hf v i (by simp) hA hB]
    exact ih _ (fun u j hj => hf u j (by simp [hj])) hb.1 hb.2

theorem mem_range'_div (s i : Nat) (p : Nat) (hs : s = 20 * p) (h : i ∈ List.range' s 20) :
    i / 20 = p := by
  rw [List.mem_range'_1] at h
  omega

/-- The four loops of `processSHA1MessageBlock` are one fold of 80 reference steps. -/
theorem processSHA1MessageBlock_eq_reference (block H : List Nat)
    (hH : ∀ h ∈ H, h < 2 ^ 32) :
    processSHA1MessageBlock block H = referenceCompress block H := by
  have hget : ∀ k, H.getD k 0 < 2 ^ 32 := by
    intro k
    by_cases hk : k < H.length
    · rw [List.getD_eq_getElem _ _ hk]; exact hH _ (List.getElem_mem hk)
    · rw [List.getD_eq_default _ _ (by omega)]; norm_num
  have e80 : List.range 80
      = List.range' 0 20 ++ (List.range' 20 20 ++ (List.range' 40 20 ++ List.range' 60 20)) := by
    decide
  obtain ⟨a1, b1, c1⟩ := foldl_rounds (schedule block) (round1 (schedule block))
    (List.range' 0 20) ⟨H.getD 0 0, H.getD 1 0, H.getD 2 0, H.getD 3 0, H.getD 4 0⟩
    (fun u i hi hA hB => by
      rw [round1_eq]
      exact roundWith_eq_referenceRound _ u i 0 (mem_range'_div 0 i 0 rfl hi) hA hB)
    (hget 0) (hget 1)
  obtain ⟨a2, b2, c2⟩ := foldl_rounds (schedule block) (round2 (schedule block))
    (List.range' 20 20) _
    (fun u i hi hA hB => by
      rw [round2_eq]
      exact roundWith_eq_referenceRound _ u i 1 (mem_range'_div 20 i 1 rfl hi) hA hB)
    b1 c1
  obtain ⟨a3, b3, c3⟩ := foldl_rounds (schedule block) (round3 (schedule block))
    (List.range' 40 20) _
    (fun u i hi hA hB => by
      rw [round3_eq]
      exact roundWith_eq_referenceRound _ u i 2 (mem_range'_div 40 i 2 rfl hi) hA hB)
    b2 c2
  obtain ⟨a4, -, -⟩ := foldl_rounds (schedule block) (round4 (schedule block))
    (List.range' 60 20) _
    (fun u i hi hA hB => by
      rw [round4_eq]
      exact roundWith_eq_referenceRound _ u i 3 (mem_range'_div 60 i 3 rfl hi) hA hB)
    b3 c3
  simp only [processSHA1MessageBlock, referenceCompress]
  rw [e80, List.foldl_append, List.foldl_append, List.foldl_append, a1, a2, a3, a4]

/-! ## The message schedule -/

theorem scheduleFold_succ (W0 : List Nat) (k : Nat) :
    (List.range' 16 (k + 1)).foldl scheduleStep W0
      = scheduleStep ((List.range' 16 k).foldl scheduleStep W0) (16 + k) := by
  rw [List.range'_concat, List.foldl_append]
  simp

theorem scheduleFold_length (W0 : List Nat) : ∀ k : Nat,
    ((List.range' 16 k).foldl scheduleStep W0).length = W0.length + k := by
  intro k
  induction k with
  | zero => simp
  | succ k ih =>
    rw [scheduleFold_succ, scheduleStep, List.length_append, ih]
    simp
    omega

theorem scheduleFold_take (W0 : List Nat) : ∀ (n k : Nat), k ≤ n →
    ((List.range' 16 n).foldl scheduleStep W0).take (W0.length + k)
      = (List.range' 16 k).foldl scheduleStep W0 := by
  intro n
  induction n with
  | zero =>
    intro k hk
    have : k = 0 := by omega
    subst this
    simp
  | succ n ih =>
    intro k hk
    by_cases hkn : k = n + 1
    · subst hkn
      exact List.take_of_length_le (by rw [scheduleFold_length])
    · rw [scheduleFold_succ, scheduleStep,
        List.take_append_of_le_length (by rw [scheduleFold_length]; omega), ih k (by omega)]

theorem getD_take (l : List Nat) (n j : Nat) (h : j < n) : (l.take n).getD j 0 = l.getD j 0 := by
  simp [List.getD_eq_getElem?_getD, List.getElem?_take, h]

theorem loadWord_eq (block : List Nat) (hb : ∀ b ∈ block, b < 256) (i : Nat) :
    loadWord block i = blockWord block i := by
  have e : i <<< 2 = 4 * i := by rw [Nat.shiftLeft_eq]; omega
  have b0 := getD_lt block hb (4 * i)
  have b1 := getD_lt block hb (4 * i + 1)
  have b2 := getD_lt block hb (4 * i + 2)
  have b3 := getD_lt block hb (4 * i + 3)
  simp only [loadWord, blockWord, e]
  rw [be32_or _ _ _ _ b1 b2 b3]
  generalize block.getD (4 * i) 0 = x0 at *
  generalize block.getD (4 * i + 1) 0 = x1 at *
  generalize block.getD (4 * i + 2) 0 = x2 at *
  generalize block.getD (4 * i + 3) 0 = x3 at *
  norm_num
  omega

theorem schedule_length (block : List Nat) : (schedule block).length = 80 := by
  rw [schedule, scheduleFold_length]
  simp

theorem schedule_low (block : List Nat) (i : Nat) (hi : i < 16) :
    (schedule block).getD i 0 = loadWord block i := by
  have h := scheduleFold_take ((List.range 16).map (loadWord block)) 64 0 (by omega)
  simp only [List.range'_zero, List.foldl_nil, Nat.add_zero, List.length_map,
    List.length_range] at h
  rw [← getD_take (schedule block) 16 i hi, schedule, h]
  simp [List.getD_eq_getElem?_getD, List.getElem?_map, List.getElem?_range, hi]

theorem schedule_high (block : List Nat) (i : Nat) (h1 : 16 ≤ i) (h2 : i < 80) :
    (schedule block).getD i 0 = circularShift 1
      ((schedule block).getD (i - 3) 0 ^^^ (schedule block).getD (i - 8) 0
        ^^^ (schedule block).getD (i - 14) 0 ^^^ (schedule block).getD (i - 16) 0) := by
  obtain ⟨k, rfl⟩ : ∃ k, i = 16 + k := ⟨i - 16, by omega⟩
  have hW0 : ((List.range 16).map (loadWord block)).length = 16 := by simp
  have hk := scheduleFold_take ((List.range 16).map (loadWord block)) 64 k (by omega)
  have hk1 := scheduleFold_take ((List.range 16).map (loadWord block)) 64 (k + 1) (by omega)
  rw [hW0] at hk hk1
  have hlen := scheduleFold_length ((List.range 16).map (loadWord block)) k
  rw [hW0] at hlen
  rw [← getD_take (schedule block) (16 + (k + 1)) (16 + k) (by omega)]
  rw [← getD_take (schedule block) (16 + k) (16 + k - 3) (by omega),
    ← getD_take (schedule block) (16 + k) (16 + k - 8) (by omega),
    ← getD_take (schedule block) (16 + k) (16 + k - 14) (by omega),
    ← getD_take (schedule block) (16 + k) (16 + k - 16) (by omega)]
  rw [schedule, hk, hk1, scheduleFold_succ, scheduleStep]
  rw [List.getD_eq_getElem?_getD, List.getElem?_append_right (by omega), hlen]
  simp

theorem schedule_lt (block : List Nat) : ∀ i, (schedule block).getD i 0 < 2 ^ 32 := by
  intro i
  induction i using Nat.strong_induction_on with
  | _ i ih =>
    by_cases h16 : i < 16
    · rw [schedule_low block i h16, loadWord]
      exact Nat.mod_lt _ (by norm_num)
    · by_cases h80 : i < 80
      · rw [schedule_high block i (by omega) h80, circularShift]
        apply Nat.or_lt_two_pow
        · exact Nat.mod_lt _ (by norm_num)
        · rw [Nat.shiftRight_eq_div_pow]
          refine lt_of_le_of_lt (Nat.div_le_self _ _) ?_
          exact Nat.xor_lt_two_pow (Nat.xor_lt_two_pow (Nat.xor_lt_two_pow
            (ih _ (by omega)) (ih _ (by omega))) (ih _ (by omega))) (ih _ (by omega))
      · rw [List.getD_eq_default _ _ (by rw [schedule_length]; omega)]
        norm_num

theorem schedule_high_rotate (block : List Nat) (i : Nat) (h1 : 16 ≤ i) (h2 : i < 80) :
    (schedule block).getD i 0 = rotateLeft32 1
      ((schedule block).getD (i - 3) 0 ^^^ (schedule block).getD (i - 8) 0
        ^^^ (schedule block).getD (i - 14) 0 ^^^ (schedule block).getD (i - 16) 0) := by
  rw [schedule_high block i h1 h2]
  exact circularShift_eq_rotateLeft32 1 _ (by norm_num) (by norm_num)
    (Nat.xor_lt_two_pow (Nat.xor_lt_two_pow (Nat.xor_lt_two_pow
      (schedule_lt block _) (schedule_lt block _)) (schedule_lt block _)) (schedule_lt block _))

/-! ## Mixing functions, hexadecimal words and further test vectors -/

theorem phaseFunction_parity_shared : phaseFunction 1 = phaseFunction 3 := by
  funext B C D
  simp [phaseFunction]

theorem phaseFunction_distinct :
    phaseFunction 0 ≠ phaseFunction 1 ∧ phaseFunction 0 ≠ phaseFunction 2 ∧
    phaseFunction 1 ≠ phaseFunction 2 := by
  refine ⟨?_, ?_, ?_⟩
  · intro h
    have := congrFun (congrFun (congrFun h 1) 1) 0
    revert this
    decide
  · intro h
    have := congrFun (congrFun (congrFun h 1) 0) 1
    revert this
    decide
  · intro h
    have := congrFun (congrFun (congrFun h 1) 1) 0
    revert this
    decide

theorem phaseFunction_parity_linear (B C D B1 C1 D1 : Nat) :
    phaseFunction 1 (B ^^^ B1) (C ^^^ C1) (D ^^^ D1)
      = phaseFunction 1 B C D ^^^ phaseFunction 1 B1 C1 D1 := by
  simp only [phaseFunction]
  norm_num
  ac_rfl

theorem hexOfBytes_bigEndian4 (w : Nat) : hexOfBytes (bigEndian 4 w) = hexWord w := by
  have e1 : w / 16777216 % 256 / 16 = w / 268435456 % 16 := by omega
  have e2 : w / 65536 % 256 / 16 = w / 1048576 % 16 := by omega
  have e3 : w / 256 % 256 / 16 = w / 4096 % 16 := by omega
  have e4 : w % 256 / 16 = w / 16 % 16 := by omega
  simp only [hexOfBytes, bigEndian, hexWord, List.range, List.range.loop, List.map_cons,
    List.map_nil, List.flatMap_cons, List.flatMap_nil, List.cons_append, List.nil_append]
  norm_num
  rw [e1, e2, e3, e4]
  exact ⟨rfl, rfl, rfl, rfl⟩

theorem hexString_words (H : List Nat) :
    hexString H = (List.range 5).flatMap fun k => hexWord (H.getD k 0) := by
  rw [hexString_eq, wordBytes]
  simp only [List.range, List.range.loop, List.flatMap_cons, List.flatMap_nil,
    hexOfBytes_append, hexOfBytes_bigEndian4, hexOfBytes_nil]

theorem strtoul16_hexWord (w : Nat) (hw : w < 2 ^ 32) : strtoul16 (hexWord w) = w := by
  have h := strtoul16_hex ((List.range 8).map fun i => w / 16 ^ (7 - i) % 16) (by
    intro d hd
    rw [List.mem_map] at hd
    obtain ⟨i, -, rfl⟩ := hd
    exact Nat.mod_lt _ (by norm_num))
  rw [List.map_map] at h
  rw [hexWord]
  refine h.trans ?_
  have e : List.range 8 = [0, 1, 2, 3, 4, 5, 6, 7] := by decide
  rw [e]
  simp only [List.map_cons, List.map_nil, List.foldl_cons, List.foldl_nil, ULONG_MAX]
  have hm : ∀ x : Nat, x < 2 ^ 32 → min x (2 ^ 64 - 1) = x := by
    intro x hx
    apply Nat.min_eq_left
    norm_num at hx ⊢
    omega
  norm_num at hw
  have hv : ((((((((0 * 16 + w / 16 ^ (7 - 0) % 16) * 16 + w / 16 ^ (7 - 1) % 16) * 16
      + w / 16 ^ (7 - 2) % 16) * 16 + w / 16 ^ (7 - 3) % 16) * 16 + w / 16 ^ (7 - 4) % 16) * 16
      + w / 16 ^ (7 - 5) % 16) * 16 + w / 16 ^ (7 - 6) % 16) * 16 + w / 16 ^ (7 - 7) % 16) = w := by
    norm_num
    omega
  rw [hv]
  exact hm w (by norm_num; exact hw)
theorem getD_of_drop : ∀ (n : Nat) (l t : List Nat) (a b : Nat), l.drop n = a :: b :: t →
    l.getD n 0 = a ∧ l.getD (n + 1) 0 = b := by
  intro n
  induction n with
  | zero => intro l t a b h; rw [List.drop_zero] at h; subst h; exact ⟨rfl, rfl⟩
  | succ n ih =>
    intro l t a b h
    cases l with
    | nil => simp at h
    | cons x xs =>
      rw [List.drop_succ_cons] at h
      simpa using ih xs t a b h

theorem hexString_chars (H : List Nat) (j : Nat) (hj : j < 20) :
    (hexString H).getD (2 * j) 0 = hexDigits.getD ((wordBytes H).getD j 0 / 16) 0 ∧
    (hexString H).getD (2 * j + 1) 0 = hexDigits.getD ((wordBytes H).getD j 0 % 16) 0 := by
  have hl : j < (wordBytes H).length := by rw [wordBytes_length]; exact hj
  have h := hexOfBytes_drop j (wordBytes H)
  rw [List.drop_eq_getElem_cons hl, hexOfBytes_cons] at h
  rw [hexString_eq, List.getD_eq_getElem _ _ hl]
  exact getD_of_drop _ _ _ _ _ h

theorem hexToPadLoop_hexString (H oKeyPad : List Nat) :
    hexToPadLoop (hexString H) 129 0 oKeyPad = some (oKeyPad ++ wordBytes H) := by
  have h := hexToPadLoop_spec (wordBytes H) (wordBytes_lt H) (by rw [wordBytes_length]; omega)
    129 0 oKeyPad (by omega) (by rw [wordBytes_length]; omega)
  rw [Nat.mul_zero, List.drop_zero] at h
  rw [hexString_eq, h]

set_option maxRecDepth 1000000 in
theorem sha1_two_block_value :
    transformToSHA1 (bytes "abcdbcdecdefdefgefghfghighijhijkijkljklmklmnlmnomnopnopq")
      = some (bytes "84983e441c3bd26ebaae4aa1f95129e5e54670f1") := by
  decide

set_option maxRecDepth 1000000 in
theorem token_value_1 :
    generateToken 6 (bytes "12345678901234567890") 1 = some (bytes "287082") := by
  decide

/-! ## The claims on the block compression, the padding and the round trip -/

/-- C11. `transformToSHA1` on the 56-byte string
`abcdbcdecdefdefgefghfghighijhijkijkljklmklmnlmnomnopnopq`, which takes the branch with
the extra padding block, returns `84983e441c3bd26ebaae4aa1f95129e5e54670f1`. -/
theorem transformToSHA1_two_blocks :
    transformToSHA1 (bytes "abcdbcdecdefdefgefghfghighijhijkijkljklmklmnlmnomnopnopq")
      = some (bytes "84983e441c3bd26ebaae4aa1f95129e5e54670f1") :=
  sha1_two_block_value

/-- C12. With `AUTHENTICATOR_DIGITS = 6`, `generateToken` on the key
`12345678901234567890` and the counter 1 returns `287082`, which is not the code for the
counter 0. -/
theorem generateToken_vector_one :
    generateToken 6 (bytes "12345678901234567890") 1 = some (bytes "287082") ∧
    generateToken 6 (bytes "12345678901234567890") 1
      ≠ generateToken 6 (bytes "12345678901234567890") 0 := by
  refine ⟨token_value_1, ?_⟩
  rw [token_value_1, token_value_0]
  decide

/-- C13. For every key of at most 64 bytes and every counter, `generateToken` reaches no
failing branch: the stores into the message and into the two key pads, both digests (with
their stores into the block buffer), the loop over the pairs of hexadecimal characters and
the substrings of the 40-character digest all yield a result, and a code is returned. -/
theorem generateToken_total (D : Nat) (key : List Nat) (ticks : Nat)
    (hk : key.length ≤ 64) :
    ∃ message pads inner oKeyPad mac offset truncHash code,
      ticksMessage (List.replicate 8 0) ticks = some message ∧
      keyPads key = some pads ∧ pads.1.length = 64 ∧ pads.2.length = 64 ∧
      transformToSHA1 (pads.1 ++ message) = some inner ∧ inner.length = 40 ∧
      hexToPadLoop inner 129 0 pads.2 = some oKeyPad ∧ oKeyPad.length = 84 ∧
      transformToSHA1 oKeyPad = some mac ∧ mac.length = 40 ∧
      tokenMac key ticks = some mac ∧
      tokenOffset mac = some offset ∧ 2 * offset + 8 ≤ mac.length ∧
      tokenTruncHash mac = some truncHash ∧
      tokenDigits D truncHash = some code ∧
      generateToken D key ticks = some code := by
  have hm := ticksMessage_general (List.replicate 8 0) (by simp) ticks
  have hp := keyPads_spec key hk
  have hi := transformToSHA1_eq
    (((key.map fun k => (0x36 ^^^ k) % 256) ++ List.replicate (64 - key.length) 0x36)
      ++ [(List.replicate 8 0).getD 0 0, (ticks >>> 48) % 256, (ticks >>> 40) % 256,
          (ticks >>> 32) % 256, (ticks >>> 24) % 256, (ticks >>> 16) % 256,
          (ticks >>> 8) % 256, ticks % 256])
  rw [referenceSHA1, ← hexString_eq] at hi
  have hx := hexToPadLoop_hexString (referenceState
    ((((key.map fun k => (0x36 ^^^ k) % 256) ++ List.replicate (64 - key.length) 0x36)
      ++ [(List.replicate 8 0).getD 0 0, (ticks >>> 48) % 256, (ticks >>> 40) % 256,
          (ticks >>> 32) % 256, (ticks >>> 24) % 256, (ticks >>> 16) % 256,
          (ticks >>> 8) % 256, ticks % 256]).map (· % 256)))
    ((key.map fun k => (0x5C ^^^ k) % 256) ++ List.replicate (64 - key.length) 0x5C)
  generalize referenceState
    ((((key.map fun k => (0x36 ^^^ k) % 256) ++ List.replicate (64 - key.length) 0x36)
      ++ [(List.replicate 8 0).getD 0 0, (ticks >>> 48) % 256, (ticks >>> 40) % 256,
          (ticks >>> 32) % 256, (ticks >>> 24) % 256, (ticks >>> 16) % 256,
          (ticks >>> 8) % 256, ticks % 256]).map (· % 256)) = Hi at hi hx
  have hm2 := transformToSHA1_eq
    (((key.map fun k => (0x5C ^^^ k) % 256) ++ List.replicate (64 - key.length) 0x5C)
      ++ wordBytes Hi)
  rw [referenceSHA1] at hm2
  generalize referenceState
    ((((key.map fun k => (0x5C ^^^ k) % 256) ++ List.replicate (64 - key.length) 0x5C)
      ++ wordBytes Hi).map (· % 256)) = Hm at hm2
  have htm : tokenMac key ticks = some (hexOfBytes (wordBytes Hm)) := by
    rw [tokenMac, hm, Option.some_bind, hp, Option.some_bind, hi, Option.some_bind, hx,
      Option.some_bind, hm2]
  have hoff := tokenOffset_spec (wordBytes Hm) (wordBytes_length Hm)
  have htr := tokenTruncHash_spec (wordBytes Hm) (wordBytes_length Hm) (wordBytes_lt Hm)
  have ho : (wordBytes Hm).getD 19 0 &&& 0x0F < 16 := by
    rw [and_15]; exact Nat.mod_lt _ (by norm_num)
  refine ⟨_, _, _, _, _, _, _, _, hm, hp, ?_, ?_, hi, ?_, hx, ?_, hm2, ?_, htm, hoff, ?_, htr,
    tokenDigits_spec D _, ?_⟩
  · simp only [List.length_append, List.length_map, List.length_replicate]; omega
  · simp only [List.length_append, List.length_map, List.length_replicate]; omega
  · rw [hexString_eq, hexOfBytes_length, wordBytes_length]
  · simp only [List.length_append, List.length_map, List.length_replicate, wordBytes_length]
    omega
  · rw [hexOfBytes_length, wordBytes_length]
  · rw [hexOfBytes_length, wordBytes_length]; omega
  · rw [generateToken, htm, Option.some_bind, htr, Option.some_bind, tokenDigits_spec]

/-- C13 at six digits, the key `[1, 2, 3]` and the counter 5. -/
theorem generateToken_total_witness :
    ([1, 2, 3] : List Nat).length ≤ 64 ∧ ∃ code, generateToken 6 [1, 2, 3] 5 = some code := by
  refine ⟨by decide, ?_⟩
  obtain ⟨_, _, _, _, _, _, _, code, h⟩ := generateToken_total 6 [1, 2, 3] 5 (by decide)
  exact ⟨code, h.2.2.2.2.2.2.2.2.2.2.2.2.2.2.2⟩

/-- C14. For every input of `n` bytes, `transformToSHA1` calls the block compression
exactly `(n + 8) / 64 + 1` times, and the branch `index > 56` with the extra block is taken
if and only if `n mod 64 >= 56`: there is one call for 55 bytes, without the branch, and
there are two calls for 56, 57 and 64 bytes, with the branch for 56 and 57 bytes. -/
theorem transformToSHA1_calls (garbage m : List Nat) (hg : garbage.length = 64) :
    ∃ H tr, digestStateTraced garbage m = some (H, tr) ∧ digestState garbage m = some H ∧
      tr.calls = (m.length + 8) / 64 + 1 ∧
      (tr.extraBlock = true ↔ 56 ≤ m.length % 64) ∧
      (m.length = 55 → tr.calls = 1 ∧ tr.extraBlock = false) ∧
      (m.length = 56 → tr.calls = 2 ∧ tr.extraBlock = true) ∧
      (m.length = 57 → tr.calls = 2 ∧ tr.extraBlock = true) ∧
      (m.length = 64 → tr.calls = 2 ∧ tr.extraBlock = false) := by
  obtain ⟨B, hB, -, -⟩ := digestStateTraced_spec garbage m hg
  refine ⟨_, _, hB, digestState_eq garbage m hg, rfl, by simp, ?_, ?_, ?_, ?_⟩ <;>
    (intro h; simp [h])

/-- C14 at an input of 56 bytes: two calls, the second for the extra block. -/
theorem transformToSHA1_calls_witness :
    (List.replicate 64 0).length = 64 ∧
    ∃ H tr, digestStateTraced (List.replicate 64 0) (List.replicate 56 1) = some (H, tr) ∧
      tr.calls = 2 ∧ tr.extraBlock = true := by
  refine ⟨by decide, ?_⟩
  obtain ⟨H, tr, h1, -, -, -, -, h56, -, -⟩ :=
    transformToSHA1_calls (List.replicate 64 0) (List.replicate 56 1) (by decide)
  exact ⟨H, tr, h1, h56 (by decide)⟩

/-- C15. For every input of `n` bytes, behind the input loop of `transformToSHA1`
`length_high * 2 ^ 32 + length_low = (8 * n) mod 2 ^ 64`; `length_low` is a multiple of 8,
so that in every pass of the loop the test `length_low == 0` holds exactly when the
addition of 8 left the 32-bit range; and bytes 56 to 63 of the block of the last call of
the compression are the big-endian encoding of that 64-bit value. -/
theorem transformToSHA1_length_field (garbage m : List Nat) (hg : garbage.length = 64) :
    (∃ s1 H tr,
      inputLoop { H := initialH, messageBlock := garbage, index := 0,
                  length_low := 0, length_high := 0 } m = some s1 ∧
      s1.length_high * 2 ^ 32 + s1.length_low = (8 * m.length) % 2 ^ 64 ∧
      s1.length_low < 2 ^ 32 ∧ s1.length_high < 2 ^ 32 ∧ s1.length_low % 8 = 0 ∧
      digestStateTraced garbage m = some (H, tr) ∧ tr.lastBlock.length = 64 ∧
      tr.lastBlock.drop 56 = bigEndian 8 (s1.length_high * 2 ^ 32 + s1.length_low)) ∧
    (∀ (s s2 : Ctx) (ch : Nat), inputStep s ch = some s2 →
      s.length_low < 2 ^ 32 → s.length_low % 8 = 0 →
      (s2.length_low = 0 ↔ 2 ^ 32 ≤ s.length_low + 8) ∧
      s2.length_high = (if 2 ^ 32 ≤ s.length_low + 8 then (s.length_high + 1) % 2 ^ 32
        else s.length_high) ∧
      s2.length_low < 2 ^ 32 ∧ s2.length_low % 8 = 0) := by
  constructor
  · obtain ⟨s1, e1, -, -, -⟩ := inputLoop_spec m
      { H := initialH, messageBlock := garbage, index := 0, length_low := 0, length_high := 0 }
      hg (by simp)
    obtain ⟨c1, c2, c3, c4⟩ := inputLoop_length m _ s1 e1 (by simp) (by simp) (by simp)
    obtain ⟨B, hB, hBl, hBd⟩ := digestStateTraced_spec garbage m hg
    have c5 : s1.length_high * 2 ^ 32 + s1.length_low = (8 * m.length) % 2 ^ 64 := by
      rw [c4]; simp
    refine ⟨s1, _, _, e1, c5, c1, c2, c3, hB, hBl, ?_⟩
    rw [hBd, lengthField, c5]
  · intro s s2 ch h a c
    obtain ⟨e1, e2⟩ := inputStep_length s s2 ch h
    norm_num at a e1 e2 ⊢
    refine ⟨by omega, ?_, by omega, by omega⟩
    rw [e2]
    split <;> split <;> omega

/-- C15 at an input of 70 bytes: the counters hold 560 bits. -/
theorem transformToSHA1_length_field_witness :
    (List.replicate 64 0).length = 64 ∧
    ∃ s1, inputLoop { H := initialH, messageBlock := List.replicate 64 0, index := 0,
                      length_low := 0, length_high := 0 } (List.replicate 70 1) = some s1 ∧
      s1.length_high * 2 ^ 32 + s1.length_low = (8 * (List.replicate 70 1).length) % 2 ^ 64 := by
  refine ⟨by decide, ?_⟩
  obtain ⟨⟨s1, _, _, h1, h2, _⟩, _⟩ :=
    transformToSHA1_length_field (List.replicate 64 0) (List.replicate 70 1) (by decide)
  exact ⟨s1, h1, h2⟩

/-- C16, as stated, fails: the loops of phases 2 and 4 of `processSHA1MessageBlock` have
one and the same mixing function, so the four mixing functions are not pairwise
distinct. -/
theorem mixing_functions_not_pairwise_distinct :
    ¬ (∀ f1 f2 f3 f4 : Nat → Nat → Nat → Nat,
        round1 = roundWith f1 0x5A827999 → round2 = roundWith f2 0x6ED9EBA1 →
        round3 = roundWith f3 0x8F1BBCDC → round4 = roundWith f4 0xCA62C1D6 →
        f1 ≠ f2 ∧ f1 ≠ f3 ∧ f1 ≠ f4 ∧ f2 ≠ f3 ∧ f2 ≠ f4 ∧ f3 ≠ f4) := by
  intro h
  exact (h (phaseFunction 0) (phaseFunction 1) (phaseFunction 2) (phaseFunction 3)
    round1_eq round2_eq round3_eq round4_eq).2.2.2.2.1 phaseFunction_parity_shared

/-- C16, amended. The four 20-round phases of `processSHA1MessageBlock` use three distinct
mixing functions of `(B, C, D)`: the choice function in phase 1 and the majority function
in phase 3, which are nonlinear, and the parity function `B ^ C ^ D`, which is linear, in
both phase 2 and phase 4; the four additive constants are pairwise distinct. -/
theorem mixing_functions_and_constants :
    (round1 = roundWith (phaseFunction 0) 0x5A827999 ∧
     round2 = roundWith (phaseFunction 1) 0x6ED9EBA1 ∧
     round3 = roundWith (phaseFunction 2) 0x8F1BBCDC ∧
     round4 = roundWith (phaseFunction 3) 0xCA62C1D6) ∧
    (phaseFunction 0 = fun B C D => (B &&& C) ||| ((B ^^^ 0xFFFFFFFF) &&& D)) ∧
    (phaseFunction 1 = fun B C D => B ^^^ C ^^^ D) ∧
    (phaseFunction 2 = fun B C D => (B &&& C) ||| (B &&& D) ||| (C &&& D)) ∧
    phaseFunction 3 = phaseFunction 1 ∧
    (phaseFunction 0 ≠ phaseFunction 1 ∧ phaseFunction 0 ≠ phaseFunction 2 ∧
     phaseFunction 1 ≠ phaseFunction 2) ∧
    (∀ B C D B1 C1 D1 : Nat, phaseFunction 1 (B ^^^ B1) (C ^^^ C1) (D ^^^ D1)
      = phaseFunction 1 B C D ^^^ phaseFunction 1 B1 C1 D1) ∧
    phaseFunction 0 (1 ^^^ 0) (0 ^^^ 1) (0 ^^^ 0)
      ≠ phaseFunction 0 1 0 0 ^^^ phaseFunction 0 0 1 0 ∧
    phaseFunction 2 (1 ^^^ 0) (0 ^^^ 1) (0 ^^^ 0)
      ≠ phaseFunction 2 1 0 0 ^^^ phaseFunction 2 0 1 0 ∧
    (0x5A827999 ≠ 0x6ED9EBA1 ∧ 0x5A827999 ≠ 0x8F1BBCDC ∧ 0x5A827999 ≠ 0xCA62C1D6 ∧
     0x6ED9EBA1 ≠ 0x8F1BBCDC ∧ 0x6ED9EBA1 ≠ 0xCA62C1D6 ∧ 0x8F1BBCDC ≠ 0xCA62C1D6) := by
  refine ⟨⟨round1_eq, round2_eq, round3_eq, round4_eq⟩, ?_, ?_, ?_,
    phaseFunction_parity_shared.symm, phaseFunction_distinct, phaseFunction_parity_linear,
    by decide, by decide, by decide⟩
  · funext B C D; simp [phaseFunction]
  · funext B C D; simp [phaseFunction]
  · funext B C D; simp [phaseFunction]

/-- C17. For every state `H[0..4]` the 40 characters that `transformToSHA1` puts out are
the concatenation, for `k = 0..4` in order, of the 8 lowercase hexadecimal digits of
`H[k]`, most significant first (read as a hexadecimal number they give `H[k]` back), and
the characters `2 * j` and `2 * j + 1` encode byte `j` of the big-endian serialization of
the five words. -/
theorem transformToSHA1_output (H : List Nat) :
    hexString H = (List.range 5).flatMap (fun k => hexWord (H.getD k 0)) ∧
    (∀ k, H.getD k 0 < 2 ^ 32 → strtoul16 (hexWord (H.getD k 0)) = H.getD k 0) ∧
    hexString H = hexOfBytes (wordBytes H) ∧
    (∀ j, j < 20 →
      (hexString H).getD (2 * j) 0 = hexDigits.getD ((wordBytes H).getD j 0 / 16) 0 ∧
      (hexString H).getD (2 * j + 1) 0 = hexDigits.getD ((wordBytes H).getD j 0 % 16) 0) :=
  ⟨hexString_words H, fun _ hk => strtoul16_hexWord _ hk, hexString_eq H,
    fun j hj => hexString_chars H j hj⟩

/-- C17 at the five initial words: character 0 is the high digit of the first byte. -/
theorem transformToSHA1_output_witness :
    (hexString initialH).getD (2 * 0) 0
      = hexDigits.getD ((wordBytes initialH).getD 0 0 / 16) 0 :=
  ((transformToSHA1_output initialH).2.2.2 0 (by decide)).1

/-- C18. For every digest string that `transformToSHA1` returns, the loop of
`generateToken` over the pairs of hexadecimal characters appends exactly 20 bytes to the
outer pad, the big-endian serialization of the five words of the digest state, so that the
second pass hashes 84 bytes. -/
theorem generateToken_hex_round_trip (input oKeyPad : List Nat) :
    ∃ H, digestState (List.replicate 64 0) input = some H ∧
      transformToSHA1 input = some (hexString H) ∧
      hexToPadLoop (hexString H) 129 0 oKeyPad = some (oKeyPad ++ wordBytes H) ∧
      (wordBytes H).length = 20 ∧
      (oKeyPad.length = 64 → (oKeyPad ++ wordBytes H).length = 84) := by
  refine ⟨_, digestState_eq _ input (by simp), ?_, hexToPadLoop_hexString _ _,
    wordBytes_length _, ?_⟩
  · rw [transformToSHA1_eq, referenceSHA1, hexString_eq]
  · intro h
    rw [List.length_append, wordBytes_length, h]

/-- C18 at the input `abc` and an outer pad of 64 bytes. -/
theorem generateToken_hex_round_trip_witness :
    ∃ H, transformToSHA1 (bytes "abc") = some (hexString H) ∧
      hexToPadLoop (hexString H) 129 0 (List.replicate 64 0x5C)
        = some (List.replicate 64 0x5C ++ wordBytes H) ∧
      (List.replicate 64 0x5C ++ wordBytes H).length = 84 := by
  obtain ⟨H, -, h2, h3, -, h5⟩ :=
    generateToken_hex_round_trip (bytes "abc") (List.replicate 64 0x5C)
  exact ⟨H, h2, h3, h5 (by decide)⟩

/-- C19. For every 64-byte block the array `W` of `processSHA1MessageBlock` has 80 words;
for `i < 16`, `W[i]` is the big-endian word of the block bytes `4 * i` to `4 * i + 3`,
which lie inside the block; for `16 <= i < 80`, `W[i]` is the rotation to the left by 1 of
`W[i-3] ^ W[i-8] ^ W[i-14] ^ W[i-16]`; the pass for `W[i]` runs on the `i` words written
before it, so that the four indices it reads are below `i`, and the indices that the
rounds read are below 80. -/
theorem processSHA1MessageBlock_schedule (block : List Nat) (hl : block.length = 64)
    (hb : ∀ b ∈ block, b < 256) :
    (schedule block).length = 80 ∧
    (∀ i, i < 16 → 4 * i + 3 < block.length ∧
      (schedule block).getD i 0 = blockWord block i) ∧
    (∀ i, 16 ≤ i → i < 80 →
      (schedule block).getD i 0 = rotateLeft32 1
        ((schedule block).getD (i - 3) 0 ^^^ (schedule block).getD (i - 8) 0
          ^^^ (schedule block).getD (i - 14) 0 ^^^ (schedule block).getD (i - 16) 0) ∧
      (schedule block).getD i 0 = circularShift 1
        ((schedule block).getD (i - 3) 0 ^^^ (schedule block).getD (i - 8) 0
          ^^^ (schedule block).getD (i - 14) 0 ^^^ (schedule block).getD (i - 16) 0)) ∧
    (∀ k, k < 64 →
      ((List.range' 16 k).foldl scheduleStep ((List.range 16).map (loadWord block))).length
        = 16 + k ∧
      (List.range' 16 k).foldl scheduleStep ((List.range 16).map (loadWord block))
        = (schedule block).take (16 + k) ∧
      (List.range' 16 (k + 1)).foldl scheduleStep ((List.range 16).map (loadWord block))
        = scheduleStep
            ((List.range' 16 k).foldl scheduleStep ((List.range 16).map (loadWord block)))
            (16 + k) ∧
      16 + k - 3 < 16 + k ∧ 16 ≤ 16 + k) ∧
    (∀ i, i ∈ List.range' 0 20 ++ List.range' 20 20 ++ List.range' 40 20 ++ List.range' 60 20 →
      i < (schedule block).length) ∧
    (∀ i, (schedule block).getD i 0 < 2 ^ 32) := by
  have hW0 : ((List.range 16).map (loadWord block)).length = 16 := by simp
  refine ⟨schedule_length block, ?_, ?_, ?_, ?_, schedule_lt block⟩
  · intro i hi
    exact ⟨by omega, by rw [schedule_low block i hi, loadWord_eq block hb]⟩
  · intro i h1 h2
    exact ⟨schedule_high_rotate block i h1 h2, schedule_high block i h1 h2⟩
  · intro k hk
    have h1 := scheduleFold_length ((List.range 16).map (loadWord block)) k
    have h2 := scheduleFold_take ((List.range 16).map (loadWord block)) 64 k (by omega)
    rw [hW0] at h1 h2
    exact ⟨h1, by rw [schedule, h2], scheduleFold_succ _ k, by omega, by omega⟩
  · intro i hi
    rw [schedule_length]
    simp only [List.mem_append, List.mem_range'_1] at hi
    omega

/-- C19 at the block of the empty input. -/
theorem processSHA1MessageBlock_schedule_witness :
    (0x80 :: List.replicate 63 0).length = 64 ∧
    (∀ b ∈ 0x80 :: List.replicate 63 0, b < 256) ∧
    (schedule (0x80 :: List.replicate 63 0)).length = 80 :=
  ⟨by decide, by decide,
    (processSHA1MessageBlock_schedule (0x80 :: List.replicate 63 0) (by decide)
      (by decide)).1⟩

/-- C20. For every block and every state `H` of 32-bit words, `processSHA1MessageBlock` is
one fold of 80 steps from `(A, B, C, D, E) = H`, where step `i` maps `(A, B, C, D, E)` to
`(rotl5 A + f_i (B, C, D) + E + W[i] + K_i mod 2 ^ 32, A, rotl30 B, C, D)` with `f_i` and
`K_i` those of phase `i / 20`, and the result is `H[k]` plus the `k`-th variable modulo
`2 ^ 32` for `k = 0..4`. -/
theorem processSHA1MessageBlock_fold (block H : List Nat) (hH : ∀ h ∈ H, h < 2 ^ 32) :
    processSHA1MessageBlock block H = referenceCompress block H :=
  processSHA1MessageBlock_eq_reference block H hH

/-- C20 at the block of the empty input and the five initial words. -/
theorem processSHA1MessageBlock_fold_witness :
    (∀ h ∈ initialH, h < 2 ^ 32) ∧
    processSHA1MessageBlock (0x80 :: List.replicate 63 0) initialH
      = referenceCompress (0x80 :: List.replicate 63 0) initialH :=
  ⟨by decide, processSHA1MessageBlock_fold _ _ (by decide)⟩

/-! ## The checksum -/

theorem adlerSums_append : ∀ (l r : List Nat) (a b : Nat),
    adlerSums (l ++ r) a b = adlerSums r (adlerSums l a b).1 (adlerSums l a b).2 := by
  intro l
  induction l with
  | nil => intro r a b; rfl
  | cons d l ih =>
    intro r a b
    rw [List.cons_append, adlerSums, adlerSums]
    exact ih r _ _

theorem adlerSums_mod : ∀ (l : List Nat) (a b a1 b1 : Nat),
    a % 65521 = a1 % 65521 → b % 65521 = b1 % 65521 →
    (adlerSums l a b).1 % 65521 = (adlerSums l a1 b1).1 % 65521 ∧
    (adlerSums l a b).2 % 65521 = (adlerSums l a1 b1).2 % 65521 := by
  intro l
  induction l with
  | nil => intro a b a1 b1 h1 h2; exact ⟨h1, h2⟩
  | cons d l ih =>
    intro a b a1 b1 h1 h2
    simp only [adlerSums]
    exact ih _ _ _ _ (by omega) (by omega)

theorem adlerSums_closed : ∀ (l : List Nat) (a b : Nat),
    adlerSums l a b
      = (a + l.sum, b + ((List.range l.length).map fun i => a + (l.take (i + 1)).sum).sum) := by
  intro l
  induction l with
  | nil => intro a b; simp [adlerSums]
  | cons d l ih =>
    intro a b
    rw [adlerSums, ih]
    simp only [List.sum_cons, List.length_cons, List.range_succ_eq_map, List.map_cons,
      List.map_map, List.take_succ_cons, List.take_zero, List.sum_nil, Function.comp_def,
      Nat.succ_eq_add_one]
    congr 1
    · omega
    · have e : (fun i => a + d + (List.take (i + 1) l).sum)
          = (fun i => a + (d + (List.take (i + 1) l).sum)) := by
        funext i; omega
      rw [e]
      omega

/-- Within a chunk of at most 5552 bytes the 32-bit variables never wrap. -/
theorem adlerChunk_spec : ∀ (c rest : List Nat) (j a b : Nat),
    (∀ d ∈ c, d < 256) → c ≠ [] → j + c.length ≤ 5552 →
    a ≤ 65520 + 255 * j → 2 * b ≤ 2 * 65520 + 2 * 65520 * j + 255 * (j * (j + 1)) →
    adlerChunk (c ++ rest) c.length a b
      = some (rest, (adlerSums c a b).1, (adlerSums c a b).2) := by
  intro c
  induction c with
  | nil => intro rest j a b _ h; exact absurd rfl h
  | cons d c ih =>
    intro rest j a b hd _ hj ha hb
    have hd0 : d < 256 := hd d (by simp)
    have hq : (j + 1) * (j + 1 + 1) = j * (j + 1) + 2 * j + 2 := by ring
    have hq2 : (j + 1) * (j + 1 + 1) ≤ 5552 * 5553 :=
      Nat.mul_le_mul (by simp at hj; omega) (by simp at hj; omega)
    simp only [List.length_cons] at hj
    have ea : (a + d) % 2 ^ 32 = a + d := Nat.mod_eq_of_lt (by norm_num; omega)
    have eb : (b + (a + d)) % 2 ^ 32 = b + (a + d) := Nat.mod_eq_of_lt (by norm_num; omega)
    have et : (c.length + 1 + (2 ^ 64 - 1)) % 2 ^ 64 = c.length := by
      norm_num; omega
    simp only [List.cons_append, List.length_cons, adlerChunk, ea, eb, et]
    by_cases hc : c = []
    · subst hc
      simp [adlerSums]
    · have hl : c.length ≠ 0 := by
        intro h; exact hc (List.length_eq_zero.mp h)
      rw [if_pos hl, adlerSums]
      exact ih rest (j + 1) _ _ (fun x hx => hd x (by simp [hx])) hc (by omega) (by omega)
        (by omega)

/-- The two sums behind the loop of `adlerChecksum`. -/
theorem adlerLoop_spec : ∀ (fuel : Nat) (data : List Nat) (a b : Nat),
    (∀ d ∈ data, d < 256) → a < 65521 → b < 65521 → data.length < fuel →
    adlerLoop fuel data data.length a b
      = some ((adlerSums data a b).1 % 65521, (adlerSums data a b).2 % 65521) := by
  intro fuel
  induction fuel with
  | zero => intro data a b _ _ _ h; omega
  | succ fuel ih =>
    intro data a b hd ha hb hf
    rw [adlerLoop]
    by_cases hl : data.length > 0
    · rw [if_pos hl]
      have htl : (data.take (if data.length > 5552 then 5552 else data.length)).length
          = (if data.length > 5552 then 5552 else data.length) := by
        rw [List.length_take]; split <;> omega
      have hsplit := List.take_append_drop
        (if data.length > 5552 then 5552 else data.length) data
      have hne : data.take (if data.length > 5552 then 5552 else data.length) ≠ [] := by
        intro h
        rw [h] at htl
        simp only [List.length_nil] at htl
        split at htl <;> omega
      have hc := adlerChunk_spec
        (data.take (if data.length > 5552 then 5552 else data.length))
        (data.drop (if data.length > 5552 then 5552 else data.length)) 0 a b
        (fun d hd1 => hd d (List.mem_of_mem_take hd1)) hne
        (by rw [htl]; split <;> omega) (by omega) (by omega)
      rw [hsplit, htl] at hc
      dsimp only
      rw [hc, Option.some_bind]
      have hlen : data.length - (if data.length > 5552 then 5552 else data.length)
          = (data.drop (if data.length > 5552 then 5552 else data.length)).length := by
        rw [List.length_drop]
      dsimp only
      rw [hlen, ih _ _ _ (fun d hd1 => hd d (List.mem_of_mem_drop hd1))
        (Nat.mod_lt _ (by norm_num)) (Nat.mod_lt _ (by norm_num))
        (by rw [List.length_drop]; split <;> omega)]
      have hm := adlerSums_mod
        (data.drop (if data.length > 5552 then 5552 else data.length))
        ((adlerSums (data.take (if data.length > 5552 then 5552 else data.length)) a b).1
          % 65521)
        ((adlerSums (data.take (if data.length > 5552 then 5552 else data.length)) a b).2
          % 65521)
        (adlerSums (data.take (if data.length > 5552 then 5552 else data.length)) a b).1
        (adlerSums (data.take (if data.length > 5552 then 5552 else data.length)) a b).2
        (Nat.mod_mod _ _) (Nat.mod_mod _ _)
      rw [hm.1, hm.2, ← adlerSums_append, hsplit]
    · have h0 : data = [] := List.length_eq_zero.mp (by omega)
      subst h0
      simp [adlerSums, Nat.mod_eq_of_lt ha, Nat.mod_eq_of_lt hb]

theorem checksum_pack (A B : Nat) (hA : A < 65521) (hB : B < 65521) :
    ((B <<< 16) % 2 ^ 32) ||| A = B * 65536 + A := by
  have hA2 : A < 2 ^ 16 := lt_of_lt_of_le hA (by norm_num)
  have e1 : (B <<< 16) % 2 ^ 32 = 2 ^ 16 * B := by
    rw [Nat.shiftLeft_eq, Nat.mul_comm]
    exact Nat.mod_eq_of_lt (by norm_num; omega)
  rw [e1, ← Nat.mul_add_lt_is_or hA2]
  omega

theorem adlerChecksum_spec (M : Nat) (data : List Nat) (hd : ∀ d ∈ data, d < 256)
    (hl : data.length ≤ M) :
    adlerChecksum M data data.length = some (adlerB data * 65536 + adlerA data) := by
  have h1 := adlerLoop_spec (data.length + 1) data 1 0 hd (by norm_num) (by norm_num)
    (by omega)
  rw [adlerSums_closed] at h1
  have eA : (1 + data.sum) % 65521 = adlerA data := rfl
  have eB : (0 + ((List.range data.length).map fun i => 1 + (data.take (i + 1)).sum).sum)
      % 65521 = adlerB data := by
    rw [Nat.zero_add]; rfl
  rw [eA, eB] at h1
  rw [adlerChecksum, if_neg (by omega), h1, Option.some_bind]
  dsimp only
  rw [checksum_pack (adlerA data) (adlerB data) (Nat.mod_lt _ (by norm_num))
    (Nat.mod_lt _ (by norm_num))]

theorem adlerSums_bound : ∀ (c : List Nat) (j a b : Nat),
    (∀ d ∈ c, d < 256) →
    a ≤ 65520 + 255 * j → 2 * b ≤ 2 * 65520 + 2 * 65520 * j + 255 * (j * (j + 1)) →
    (adlerSums c a b).1 ≤ 65520 + 255 * (j + c.length) ∧
    2 * (adlerSums c a b).2 ≤ 2 * 65520 + 2 * 65520 * (j + c.length)
      + 255 * ((j + c.length) * (j + c.length + 1)) := by
  intro c
  induction c with
  | nil => intro j a b _ ha hb; exact ⟨ha, hb⟩
  | cons d c ih =>
    intro j a b hd ha hb
    have hd0 : d < 256 := hd d (by simp)
    have hq : (j + 1) * (j + 1 + 1) = j * (j + 1) + 2 * j + 2 := by ring
    have h := ih (j + 1) (a + d) (b + (a + d)) (fun x hx => hd x (by simp [hx])) (by omega)
      (by omega)
    have e : j + (d :: c).length = j + 1 + c.length := by simp; omega
    rw [adlerSums, e]
    exact h

theorem adlerSums_lt (c : List Nat) (a b : Nat) (hd : ∀ d ∈ c, d < 256)
    (hl : c.length ≤ 5552) (ha : a < 65521) (hb : b < 65521) :
    (adlerSums c a b).1 < 2 ^ 32 ∧ (adlerSums c a b).2 < 2 ^ 32 := by
  obtain ⟨h1, h2⟩ := adlerSums_bound c 0 a b hd (by omega) (by omega)
  have hq : (0 + c.length) * (0 + c.length + 1) ≤ 5552 * 5553 :=
    Nat.mul_le_mul (by omega) (by omega)
  norm_num at h1 h2 hq ⊢
  constructor <;> omega

/-! ## The rotation and keys with trailing zero bytes -/

theorem circularShift_testBit (k v j : Nat) (h1 : 1 ≤ k) (h2 : k ≤ 31) (hv : v < 2 ^ 32)
    (hj : j < 32) :
    (circularShift k v).testBit j = v.testBit ((j + 32 - k) % 32) := by
  rw [circularShift, Nat.testBit_or, Nat.testBit_mod_two_pow, Nat.testBit_shiftLeft,
    Nat.testBit_shiftRight]
  by_cases hjk : j < k
  · have e : (j + 32 - k) % 32 = 32 - k + j := by omega
    simp [e, hj, Nat.not_le.mpr hjk]
  · have e : (j + 32 - k) % 32 = j - k := by omega
    have hf : v.testBit (32 - k + j) = false :=
      Nat.testBit_lt_two_pow (lt_of_lt_of_le hv (Nat.pow_le_pow_right (by norm_num) (by omega)))
    simp [e, hj, Nat.le_of_not_lt hjk, hf]

theorem circularShift_inverse (k v : Nat) (h1 : 1 ≤ k) (h2 : k ≤ 31) (hv : v < 2 ^ 32) :
    circularShift (32 - k) (circularShift k v) = v := by
  have hw := circularShift_lt k v h1 h2 hv
  have hw2 := circularShift_lt (32 - k) _ (by omega) (by omega) hw
  apply Nat.eq_of_testBit_eq
  intro j
  by_cases hj : j < 32
  · rw [circularShift_testBit (32 - k) _ j (by omega) (by omega) hw hj,
      circularShift_testBit k v _ h1 h2 hv (Nat.mod_lt _ (by norm_num))]
    congr 1
    omega
  · rw [Nat.testBit_lt_two_pow (lt_of_lt_of_le hw2 (Nat.pow_le_pow_right (by norm_num)
        (by omega))),
      Nat.testBit_lt_two_pow (lt_of_lt_of_le hv (Nat.pow_le_pow_right (by norm_num)
        (by omega)))]

theorem tokenMac_of_keyPads (key1 key2 : List Nat) (ticks : Nat)
    (h : keyPads key1 = keyPads key2) : tokenMac key1 ticks = tokenMac key2 ticks := by
  simp only [tokenMac, h]

theorem keyPads_trailing_zeros (key : List Nat) (j : Nat) (h : key.length + j ≤ 64) :
    keyPads (key ++ List.replicate j 0) = keyPads key := by
  rw [keyPads_spec _ (by simpa using h), keyPads_spec key (by omega)]
  have e : 64 - key.length = j + (64 - (key ++ List.replicate j 0).length) := by
    simp; omega
  rw [e, List.replicate_add]
  simp

theorem generateToken_trailing_zeros (D : Nat) (key : List Nat) (j ticks : Nat)
    (h : key.length + j ≤ 64) :
    generateToken D (key ++ List.replicate j 0) ticks = generateToken D key ticks := by
  rw [generateToken, generateToken,
    tokenMac_of_keyPads _ _ ticks (keyPads_trailing_zeros key j h)]

/-! ## The split of a string -/

/-- C21. Trailing zero bytes of the key do not change the token: for every key of fewer
than 64 bytes and every counter, `generateToken` gives the same result for the key with one
more zero byte, and for the key with `j` more zero bytes while the length stays within 64;
the empty key and the key of 64 zero bytes give the same code. -/
theorem generateToken_trailing_zero (D : Nat) (key : List Nat) (ticks : Nat)
    (h : key.length < 64) :
    generateToken D (key ++ [0x00]) ticks = generateToken D key ticks ∧
    (∀ j, key.length + j ≤ 64 →
      generateToken D (key ++ List.replicate j 0) ticks = generateToken D key ticks) ∧
    generateToken D [] ticks = generateToken D (List.replicate 64 0) ticks := by
  refine ⟨?_, fun j hj => generateToken_trailing_zeros D key j ticks hj, ?_⟩
  · exact generateToken_trailing_zeros D key 1 ticks (by omega)
  · have h0 := generateToken_trailing_zeros D [] 64 ticks (by simp)
    rw [List.nil_append] at h0
    exact h0.symm

/-- C21 at six digits, the key `[1, 2, 3]` and the counter 5. -/
theorem generateToken_trailing_zero_witness :
    ([1, 2, 3] : List Nat).length < 64 ∧
    generateToken 6 ([1, 2, 3] ++ [0x00]) 5 = generateToken 6 [1, 2, 3] 5 :=
  ⟨by decide, (generateToken_trailing_zero 6 [1, 2, 3] 5 (by decide)).1⟩

/-- C22. For every byte sequence whose length does not exceed `NETWORKMESSAGE_MAXSIZE`,
`adlerChecksum` returns `B * 65536 + A` with, over unbounded integers,
`A = (1 + sum of all bytes) mod 65521` and `B` the sum, over every non-empty prefix, of
`1 +` the sum of the prefix, modulo 65521. The 32-bit variables `a` and `b` never wrap:
within a chunk of at most 5552 bytes, entered with `a` and `b` below 65521, the loop yields
the sums over unbounded integers and these are below `2 ^ 32`. -/
theorem adlerChecksum_value (NETWORKMESSAGE_MAXSIZE : Nat) (data : List Nat)
    (hd : ∀ d ∈ data, d < 256) (hl : data.length ≤ NETWORKMESSAGE_MAXSIZE) :
    adlerChecksum NETWORKMESSAGE_MAXSIZE data data.length
      = some (adlerB data * 65536 + adlerA data) ∧
    (∀ (chunk rest : List Nat) (a b : Nat), (∀ d ∈ chunk, d < 256) → chunk ≠ [] →
      chunk.length ≤ 5552 → a < 65521 → b < 65521 →
      adlerChunk (chunk ++ rest) chunk.length a b
        = some (rest, (adlerSums chunk a b).1, (adlerSums chunk a b).2) ∧
      (adlerSums chunk a b).1 < 2 ^ 32 ∧ (adlerSums chunk a b).2 < 2 ^ 32) ∧
    adlerB data * 65536 + adlerA data
      = (adlerSums data 1 0).2 % 65521 * 65536 + (adlerSums data 1 0).1 % 65521 := by
  refine ⟨adlerChecksum_spec _ data hd hl, ?_, ?_⟩
  · intro chunk rest a b hc hne hlen ha hb
    exact ⟨adlerChunk_spec chunk rest 0 a b hc hne (by omega) (by omega) (by omega),
      adlerSums_lt chunk a b hc hlen ha hb⟩
  · rw [adlerSums_closed, Nat.zero_add]
    rfl

/-- C22 at the four bytes 87, 105, 107, 105 and the limit 24590. -/
theorem adlerChecksum_value_witness :
    (∀ d ∈ ([87, 105, 107, 105] : List Nat), d < 256) ∧
    ([87, 105, 107, 105] : List Nat).length ≤ 24590 ∧
    adlerChecksum 24590 [87, 105, 107, 105] ([87, 105, 107, 105] : List Nat).length
      = some (adlerB [87, 105, 107, 105] * 65536 + adlerA [87, 105, 107, 105]) :=
  ⟨by decide, by decide,
    (adlerChecksum_value 24590 [87, 105, 107, 105] (by decide) (by decide)).1⟩

/-- C24. For every 32-bit value `v` and every count `1 <= bits <= 31`,
`circularShift bits v` is the rotation of `v` to the left by `bits` positions: it is a
32-bit value whose bit `j` is bit `(j - bits) mod 32` of `v`; hence
`circularShift (32 - bits) (circularShift bits v) = v`. The counts 1, 5 and 30 of the
digest are among these. -/
theorem circularShift_rotation (bits v : Nat) (h1 : 1 ≤ bits) (h2 : bits ≤ 31)
    (hv : v < 2 ^ 32) :
    (∀ j, j < 32 → (circularShift bits v).testBit j = v.testBit ((j + 32 - bits) % 32)) ∧
    circularShift bits v < 2 ^ 32 ∧
    circularShift bits v = rotateLeft32 bits v ∧
    circularShift (32 - bits) (circularShift bits v) = v ∧
    (bits = 1 ∨ bits = 5 ∨ bits = 30 →
      circularShift (32 - bits) (circularShift bits v) = v) :=
  ⟨fun j hj => circularShift_testBit bits v j h1 h2 hv hj, circularShift_lt bits v h1 h2 hv,
    circularShift_eq_rotateLeft32 bits v h1 h2 hv, circularShift_inverse bits v h1 h2 hv,
    fun _ => circularShift_inverse bits v h1 h2 hv⟩

/-- C24 at the count 5 and the value `0x80000001`. -/
theorem circularShift_rotation_witness :
    1 ≤ 5 ∧ 5 ≤ 31 ∧ 0x80000001 < 2 ^ 32 ∧
    circularShift (32 - 5) (circularShift 5 0x80000001) = 0x80000001 :=
  ⟨by decide, by decide, by decide,
    (circularShift_rotation 5 0x80000001 (by decide) (by decide) (by decide)).2.2.2.1⟩

end Tools
